import Mathlib

/-!
# Verification of the level-3 structure generator (`rstruct.rs`)

This file embeds the data model and the operations of the generator's
`RStruct` module: the size synthesizer (`populate_asb`), the serialize
synthesizer (`populate_as_bytes`), the deserialize synthesizer
(`populate_from_bytes`), the message classifier (`from_lvl2`) and the
struct-declaration part of the emitter (`to_syn_item`).  Machine strings and
counters are embedded as `String`/`Nat`; the panics of the source become the
`Except String` error monad.  On top of the embedding we state and prove the
specified properties, including an executable semantics for the generated
instruction sequences (modelled from the spec) and the serialize/deserialize
round-trip theorem.
-/

set_option linter.unusedVariables false

/-! ## Decimal rendering of naturals

The embedding of the decimal integer formatting used by the source's string
formatter when it builds fresh temporary names such as "len0", "len1", ….
Written with structural recursion on a fuel bound so closed instances reduce
by `rfl`/`decide`. -/

def natReprAux : Nat → Nat → List Char
  | 0, _ => []
  | _ + 1, 0 => []
  | fuel + 1, n + 1 =>
    natReprAux fuel ((n + 1) / 10) ++ [Nat.digitChar ((n + 1) % 10)]

def natRepr (n : Nat) : String :=
  if n = 0 then "0" else (natReprAux n n).asString

/-! ## Level-2 data model (input of the generator)

The level-2 semantic type representation is identified by its name: sizes of
named types are resolved at code-emission time in the target language, so the
executable semantics below take a size assignment `String → Nat` as a
parameter. -/

abbrev Lvl2Type := String

/-- Level-3 Rust type, with the constructors the source uses: `Basic` named
types and `Tuple` (constructed only as the empty tuple, the "no reply"
marker). -/
inductive RTy where
  | basic (name : String)
  | tuple (elems : List RTy)
deriving Repr

/-- `Type::from_lvl2`: converting a level-2 type to a level-3 type reference. -/
def RTy.from_lvl2 (t : Lvl2Type) : RTy := .basic t

/-- Modelled from the spec: a list's `lengthSpec` is either "resolved via a
single named LenSlot" or "computed directly from an expression over other
fields/constants"; the direct-expression form (`lvl2`'s length type is outside
the provided source) is modelled by its constant-count representative. -/
inductive LengthSpec where
  | singleSlot
  | direct (n : Nat)
deriving Repr

/-- Modelled from the spec: `single_item` answers whether the length resolves
via a single prior slot (the source discards the payload of the `Some`). -/
def LengthSpec.single_item : LengthSpec → Option Unit
  | .singleSlot => some ()
  | .direct _ => none

/-- Length expressions appearing in generated `FromBytesList` statements:
either a path to a variable (`str_to_exprpath`) or a directly computed
count. -/
inductive LenExpr where
  | path (s : String)
  | const (n : Nat)
deriving Repr

/-- `str_to_exprpath`: a variable name used as an expression. -/
def str_to_exprpath (s : String) : LenExpr := .path s

/-- Modelled from the spec: `to_length_expr` evaluates the non-single-slot
length form directly as a length expression.  The source only calls it on the
non-single-slot path; the `singleSlot` equation is arbitrary and unused. -/
def LengthSpec.to_length_expr : LengthSpec → LenExpr
  | .singleSlot => .const 0
  | .direct n => .const n

/-- `lvl2::Field`: a fixed-size scalar member retained on the final
structure (the components the generator reads). -/
structure FieldItem where
  name : String
  ty : Lvl2Type
deriving Repr

/-- `lvl2::List`: a variable-length sequence member (the components the
generator reads). -/
structure ListItem where
  name : String
  ty : Lvl2Type
  list_length : LengthSpec
  padding : Nat
deriving Repr

/-- `lvl2::StructureItem`: one element of a message's wire layout. -/
inductive StructureItem where
  | field (f : FieldItem)
  | padding (bytes : Nat)
  | lenSlot (ty : Lvl2Type) (owning_list : String)
  | list (l : ListItem)
deriving Repr

/-! ## Level-3 output model -/

/-- One part of the symbolic size sum. -/
inductive SizeSumPart where
  | sizeofField (name : String)
  | bytes (n : Nat)
  | listTimesSize (name : String) (ty : Lvl2Type) (padding : Nat)
  | sizeofType (ty : RTy)
deriving Repr

/-- Serialize-sequence statements (`as_bytes`). -/
inductive ABStatement where
  | createIndexVariable
  | appendToIndex (name : String)
  | padIndex (bytes : Nat)
  | appendLengthToIndex (owning_list : String)
  | asBytesList (name : String) (ty : Lvl2Type) (pad : Nat)
  | returnIndex
deriving Repr

/-- Deserialize-sequence statements (`from_bytes`). -/
inductive FBStatement where
  | createIndexVariable
  | loadStatementVariable (name : String) (ty : RTy) (use_slice : Bool)
  | incrementIndexSz
  | incrementIndexNumber (n : Nat)
  | fromBytesList (name : String) (ty : Lvl2Type) (len : LenExpr) (pad : Nat)
  | returnStruct (last_index : String) (sname : String) (fields : List String)
deriving Repr

/-- Kind-specific trait obligations. -/
inductive Trait where
  | event (opcode : Nat)
  | error (opcode : Nat)
  | request (opcode : Nat) (reply : RTy)
deriving Repr

/-- Inherent methods: always empty at construction; their internals are
outside the provided source. -/
structure Method where
deriving Repr

/-- The ASB descriptor: size expression plus both instruction sequences. -/
structure Asb where
  size : List SizeSumPart
  as_bytes_stmts : List ABStatement
  from_bytes_stmts : List FBStatement
deriving Repr

def Asb.default : Asb := ⟨[], [], []⟩

/-- `RStruct`: the generated Rust structure. -/
structure RStruct where
  name : String
  derives : List String
  is_transparent : Bool
  fields : List StructureItem
  methods : List Method
  traits : List Trait
  asb : Asb
deriving Repr

/-! ## The size synthesizer (`populate_asb`, size part) -/

/-- The per-item size mapping of `populate_asb` (the body of its `map`). -/
def sizeParts (fields : List StructureItem) : List SizeSumPart :=
  fields.map fun f =>
    match f with
    | .field ⟨name, _⟩ => .sizeofField name
    | .padding bytes => .bytes bytes
    | .list l => .listTimesSize l.name l.ty l.padding
    | .lenSlot ty _ => .sizeofType (RTy.from_lvl2 ty)

/-! ## The serialize synthesizer (`populate_as_bytes`) -/

def RStruct.populate_as_bytes (s : RStruct) : RStruct :=
  let stmts :=
    [ABStatement.createIndexVariable] ++
    (s.fields.filterMap fun f =>
      match f with
      | .field ⟨name, _⟩ => some (ABStatement.appendToIndex name)
      | .padding bytes => some (.padIndex bytes)
      | .lenSlot _ owning_list => some (.appendLengthToIndex owning_list)
      | .list l => some (.asBytesList l.name l.ty l.padding)) ++
    [ABStatement.returnIndex]
  { s with asb := { s.asb with as_bytes_stmts := stmts } }

/-! ## The deserialize synthesizer (`populate_from_bytes`)

The scratch `HashMap` is embedded as an association list with at most one
entry per key (`lenMapInsert` replaces any previous entry for the key, as
`HashMap::insert` does); panics become the `Except.error` branch carrying the
panic message. -/

abbrev LenMap := List (String × String)

def lenMapInsert (m : LenMap) (k v : String) : LenMap :=
  (k, v) :: m.filter (fun p => p.1 != k)

/-- `HashMap::remove`: the removed value together with the remaining map. -/
def lenMapRemove (m : LenMap) (k : String) : Option (String × LenMap) :=
  match m with
  | [] => none
  | (k', v) :: rest =>
    if k' = k then some (v, rest)
    else (lenMapRemove rest k).map fun p => (p.1, (k', v) :: p.2)

/-- Prepend the statements emitted for one item to the result of traversing
the remaining items (the error of a panicking traversal propagates). -/
def fbCons (stmts : List FBStatement) :
    Except String (List FBStatement × LenMap × Nat) →
    Except String (List FBStatement × LenMap × Nat)
  | .error e => .error e
  | .ok (tail, m', i') => .ok (stmts ++ tail, m', i')

/-- The stateful traversal inside `populate_from_bytes`: the statements of the
loop body together with the final scratch mapping and final counter. -/
def fbBody : List StructureItem → LenMap → Nat →
    Except String (List FBStatement × LenMap × Nat)
  | [], m, i => .ok ([], m, i)
  | f :: rest, m, i =>
    match f with
    | .field ⟨name, ty⟩ =>
      fbCons [.loadStatementVariable name (RTy.from_lvl2 ty) true,
              .incrementIndexSz]
        (fbBody rest m i)
    | .padding bytes =>
      fbCons [.incrementIndexNumber bytes] (fbBody rest m i)
    | .lenSlot ty owning_list =>
      let len_name := "len" ++ natRepr i
      fbCons [.loadStatementVariable len_name (RTy.from_lvl2 ty) true,
              .incrementIndexSz]
        (fbBody rest (lenMapInsert m owning_list len_name) (i + 1))
    | .list l =>
      match l.list_length.single_item with
      | some _ =>
        match lenMapRemove m l.name with
        | none => .error ("Bad len map: Cannot find len for " ++ l.name)
        | some (tmp, m2) =>
          fbCons [.fromBytesList l.name l.ty (str_to_exprpath tmp) l.padding]
            (fbBody rest m2 i)
      | none =>
        fbCons [.fromBytesList l.name l.ty l.list_length.to_length_expr l.padding]
          (fbBody rest m i)

@[simp] theorem fbCons_error (stmts : List FBStatement) (e : String) :
    fbCons stmts (.error e) = .error e := rfl

@[simp] theorem fbCons_ok (stmts tail : List FBStatement) (m : LenMap) (i : Nat) :
    fbCons stmts (.ok (tail, m, i)) = .ok (stmts ++ tail, m, i) := rfl

/-- The field names bound by the final structure construction
(`ReturnStruct.fields`): `Field` and `List` items only, in item order. -/
def boundFieldNames (fields : List StructureItem) : List String :=
  fields.filterMap fun f =>
    match f with
    | .field ⟨name, _⟩ => some name
    | .list l => some l.name
    | _ => none

def RStruct.populate_from_bytes (s : RStruct) : Except String RStruct :=
  match fbBody s.fields [] 0 with
  | .error e => .error e
  | .ok (body, _, _) =>
    .ok { s with asb := { s.asb with from_bytes_stmts :=
            [FBStatement.createIndexVariable] ++ body ++
            [FBStatement.returnStruct "index" s.name (boundFieldNames s.fields)] } }

def RStruct.populate_asb (s : RStruct) : Except String RStruct :=
  match (s.populate_as_bytes).populate_from_bytes with
  | .error e => .error e
  | .ok s2 => .ok { s2 with asb := { s2.asb with size := sizeParts s2.fields } }

/-! ## The emitted struct declaration (`to_syn_item`, first element) -/

/-- One named field of the emitted struct declaration. -/
structure SynField where
  name : String
  ty : Lvl2Type
  is_list : Bool
deriving Repr

/-- Modelled from the spec: the per-item field renderer
(`StructureItem::to_syn_field`, outside the provided source) materializes
`Field` and `List` items as struct fields and skips `Padding` and
`LenSlot`. -/
def StructureItem.to_syn_field : StructureItem → Option SynField
  | .field ⟨name, ty⟩ => some ⟨name, ty, false⟩
  | .list l => some ⟨l.name, l.ty, true⟩
  | .padding _ => none
  | .lenSlot _ _ => none

/-- Attributes on the emitted struct declaration. -/
inductive SynAttr where
  | reprTransparent
  | deriveAttrs (ds : List String)
deriving Repr

/-- The emitted struct declaration. -/
structure SynItemStruct where
  attrs : List SynAttr
  ident : String
  fields : List SynField
deriving Repr

/-- The struct declaration built as the first element of
`RStruct::to_syn_item`. -/
def RStruct.to_syn_item_struct (s : RStruct) : SynItemStruct :=
  { attrs :=
      (match s.is_transparent with
        | false => ([] : List SynAttr)
        | true => [.reprTransparent]) ++
      (match s.derives.length with
        | 0 => ([] : List SynAttr)
        | _ + 1 => [.deriveAttrs s.derives]),
    ident := s.name,
    fields := s.fields.filterMap StructureItem.to_syn_field }

/-! ## The message classifier / splitter (`from_lvl2`) -/

mutual
/-- `lvl2::Struct`: the raw message description. -/
inductive Lvl2Struct where
  | mk (name : String) (brief : String) (desc : String)
       (fields : List StructureItem) (special : StructSpecial)

/-- `lvl2::StructSpecial`: the message kind tag. -/
inductive StructSpecial where
  | regular
  | event (opcode : Nat)
  | error (opcode : Nat)
  | request (opcode : Nat) (reply : Option Lvl2Struct)
end

def Lvl2Struct.name : Lvl2Struct → String
  | .mk n _ _ _ _ => n

def Lvl2Struct.fields : Lvl2Struct → List StructureItem
  | .mk _ _ _ fs _ => fs

def Lvl2Struct.special : Lvl2Struct → StructSpecial
  | .mk _ _ _ _ sp => sp

/-- The recursive entry point `from_lvl2`: classify and split one raw message
into one or two generated structures. -/
def from_lvl2 : Lvl2Struct → Bool → RStruct × Option RStruct
  | .mk name _brief _desc fields special, is_reply =>
    let step : String × List Trait × Option RStruct :=
      if is_reply then (name ++ "Reply", [], none)
      else
        match special with
        | .regular => (name, [], none)
        | .event opcode => (name ++ "Event", [Trait.event opcode], none)
        | .error opcode => (name ++ "Error", [Trait.error opcode], none)
        | .request opcode reply =>
          (name ++ "Request",
           [Trait.request opcode
             (match reply with
              | some rep => RTy.basic (rep.name ++ "Reply")
              | none => RTy.tuple [])],
           match reply with
           | some rep => some (from_lvl2 rep true).1
           | none => none)
    ({ name := step.1,
       derives := ["Clone", "Debug", "Default"],
       is_transparent := fields.length == 1,
       fields := fields,
       methods := [],
       traits := step.2.1,
       asb := Asb.default }, step.2.2)

/-! ## Injectivity of the decimal rendering -/

theorem natReprAux_eq_digits :
    ∀ fuel n, n ≤ fuel →
      natReprAux fuel n = (Nat.digits 10 n).reverse.map Nat.digitChar := by
  intro fuel
  induction fuel with
  | zero =>
    intro n hn
    interval_cases n
    simp [natReprAux]
  | succ fuel ih =>
    intro n hn
    match n with
    | 0 => simp [natReprAux]
    | n + 1 =>
      have hdiv : (n + 1) / 10 ≤ fuel := by
        have h1 : (n + 1) / 10 < n + 1 := Nat.div_lt_self (Nat.succ_pos n) (by norm_num)
        omega
      rw [natReprAux, ih _ hdiv, Nat.digits_def' (by norm_num : (1:ℕ) < 10) (Nat.succ_pos n)]
      simp

theorem digitChar_inj_lt :
    ∀ a < 10, ∀ b < 10, Nat.digitChar a = Nat.digitChar b → a = b := by decide

theorem map_digitChar_inj :
    ∀ l1 l2 : List ℕ, (∀ d ∈ l1, d < 10) → (∀ d ∈ l2, d < 10) →
      l1.map Nat.digitChar = l2.map Nat.digitChar → l1 = l2 := by
  intro l1
  induction l1 with
  | nil => intro l2 _ _ h; cases l2 <;> simp_all
  | cons a l ih =>
    intro l2 h1 h2 h
    cases l2 with
    | nil => simp at h
    | cons b l2' =>
      simp only [List.map_cons, List.cons.injEq] at h
      have ha : a = b :=
        digitChar_inj_lt a (h1 a (by simp)) b (h2 b (by simp)) h.1
      have hl : l = l2' := by
        refine ih l2' (fun d hd => h1 d (by simp [hd])) (fun d hd => h2 d (by simp [hd])) h.2
      rw [ha, hl]

theorem natRepr_inj : Function.Injective natRepr := by
  intro a b h
  have key : ∀ m : ℕ, 0 < m → natRepr m = ((Nat.digits 10 m).reverse.map Nat.digitChar).asString := by
    intro m hm
    rw [natRepr, if_neg (by omega), natReprAux_eq_digits m m le_rfl]
  have digEq : ∀ m k : ℕ,
      (Nat.digits 10 m).reverse.map Nat.digitChar = (Nat.digits 10 k).reverse.map Nat.digitChar →
      m = k := by
    intro m k hmk
    have : (Nat.digits 10 m).reverse = (Nat.digits 10 k).reverse := by
      refine map_digitChar_inj _ _ ?_ ?_ hmk
      · intro d hd; exact Nat.digits_lt_base (by norm_num) (List.mem_reverse.mp hd)
      · intro d hd; exact Nat.digits_lt_base (by norm_num) (List.mem_reverse.mp hd)
    have hdig : Nat.digits 10 m = Nat.digits 10 k := by
      have := congrArg List.reverse this
      simpa using this
    calc m = Nat.ofDigits 10 (Nat.digits 10 m) := (Nat.ofDigits_digits 10 m).symm
      _ = Nat.ofDigits 10 (Nat.digits 10 k) := by rw [hdig]
      _ = k := Nat.ofDigits_digits 10 k
  rcases Nat.eq_zero_or_pos a with ha | ha
  · rcases Nat.eq_zero_or_pos b with hb | hb
    · omega
    · exfalso
      rw [ha, key b hb] at h
      have h0 : natRepr 0 = (['0'] : List Char).asString := rfl
      rw [h0, List.asString_inj] at h
      have : [(0:ℕ)].map Nat.digitChar = (Nat.digits 10 b).reverse.map Nat.digitChar := by
        simpa using h
      have hrev : [(0:ℕ)] = (Nat.digits 10 b).reverse := by
        refine map_digitChar_inj _ _ (by simp) ?_ this
        intro d hd; exact Nat.digits_lt_base (by norm_num) (List.mem_reverse.mp hd)
      have hdig : Nat.digits 10 b = [0] := by
        have := congrArg List.reverse hrev
        simpa using this.symm
      have : b = 0 := by
        have hb' := Nat.ofDigits_digits 10 b
        rw [hdig] at hb'
        simpa [Nat.ofDigits] using hb'.symm
      omega
  · rcases Nat.eq_zero_or_pos b with hb | hb
    · exfalso
      rw [hb, key a ha] at h
      have h0 : natRepr 0 = (['0'] : List Char).asString := rfl
      rw [h0, List.asString_inj] at h
      have : (Nat.digits 10 a).reverse.map Nat.digitChar = [(0:ℕ)].map Nat.digitChar := by
        simpa using h
      have hrev : (Nat.digits 10 a).reverse = [(0:ℕ)] := by
        refine map_digitChar_inj _ _ ?_ (by simp) this
        intro d hd; exact Nat.digits_lt_base (by norm_num) (List.mem_reverse.mp hd)
      have hdig : Nat.digits 10 a = [0] := by
        have := congrArg List.reverse hrev
        simpa using this
      have : a = 0 := by
        have ha' := Nat.ofDigits_digits 10 a
        rw [hdig] at ha'
        simpa [Nat.ofDigits] using ha'.symm
      omega
    · rw [key a ha, key b hb, List.asString_inj] at h
      exact digEq a b h

/-- The fresh temporary allocated for counter value `k`. -/
def tempName (k : ℕ) : String := "len" ++ natRepr k

theorem tempName_inj : Function.Injective tempName := by
  intro j k h
  have hdata := congrArg String.data h
  simp only [tempName, String.data_append] at hdata
  have : (natRepr j).data = (natRepr k).data := List.append_cancel_left hdata
  exact natRepr_inj (String.ext this)

/-! ## Executable semantics of the instruction sequences

Modelled from the spec (the rendering and runtime meaning of the statement
types live outside the provided source): a populated instance is an
environment binding names to values, a value is the byte encoding of a scalar
or the per-element encodings of a list, and both instruction sequences operate
on a byte cursor exactly as the spec's contracts describe.  Element counts
written by length slots are encoded least-significant-byte first; since the
`AppendLengthToIndex` statement records only the owning list's name, the
serializer takes the slot-width assignment `lw` as a parameter (the spec fixes
the width to the owning slot's type size). -/

/-- A runtime value: a scalar's byte encoding or a list's element encodings. -/
inductive Val where
  | scalar (bytes : List Nat)
  | arr (elems : List (List Nat))
deriving Repr

abbrev Env := List (String × Val)

def envLookup (e : Env) (k : String) : Option Val :=
  match e with
  | [] => none
  | (k', v) :: rest => if k' = k then some v else envLookup rest k

/-- Encode a count into `w` bytes, least significant byte first. -/
def natToBytes : Nat → Nat → List Nat
  | 0, _ => []
  | w + 1, n => n % 256 :: natToBytes w (n / 256)

/-- Decode a least-significant-byte-first byte string into a count. -/
def bytesToNat : List Nat → Nat
  | [] => 0
  | b :: rest => b + 256 * bytesToNat rest

theorem length_natToBytes : ∀ w n, (natToBytes w n).length = w := by
  intro w
  induction w with
  | zero => intro n; rfl
  | succ w ih => intro n; simp [natToBytes, ih]

theorem bytesToNat_natToBytes : ∀ w n, n < 256 ^ w → bytesToNat (natToBytes w n) = n := by
  intro w
  induction w with
  | zero => intro n hn; interval_cases n; rfl
  | succ w ih =>
    intro n hn
    have hdiv : n / 256 < 256 ^ w := by
      rw [Nat.div_lt_iff_lt_mul (by norm_num)]
      calc n < 256 ^ (w + 1) := hn
        _ = 256 ^ w * 256 := by ring
    simp only [natToBytes, bytesToNat, ih (n / 256) hdiv]
    omega

/-- Byte width of a level-3 type under the size assignment `sz` (only `basic`
types are ever loaded by generated statements). -/
def RTy.width (sz : String → Nat) : RTy → Nat
  | .basic n => sz n
  | .tuple _ => 0

/-- One serialize statement: append bytes to the buffer.  `returnIndex` is
handled by `execAB` and is not a mid-sequence step. -/
def stepAB (sz lw : String → Nat) (env : Env) :
    ABStatement → List Nat → Option (List Nat)
  | .createIndexVariable, buf => some buf
  | .appendToIndex name, buf =>
    match envLookup env name with
    | some (.scalar bs) => some (buf ++ bs)
    | _ => none
  | .padIndex bytes, buf => some (buf ++ List.replicate bytes 0)
  | .appendLengthToIndex owning, buf =>
    match envLookup env owning with
    | some (.arr es) => some (buf ++ natToBytes (lw owning) es.length)
    | _ => none
  | .asBytesList name _ pad, buf =>
    match envLookup env name with
    | some (.arr es) => some (buf ++ es.flatten ++ List.replicate pad 0)
    | _ => none
  | .returnIndex, _ => none

/-- Run a serialize sequence: the final buffer and the returned cursor. -/
def execAB (sz lw : String → Nat) (env : Env) :
    List ABStatement → List Nat → Option (List Nat × Nat)
  | [], _ => none
  | .returnIndex :: _, buf => some (buf, buf.length)
  | st :: rest, buf => (stepAB sz lw env st buf).bind (execAB sz lw env rest)

def runAsBytes (sz lw : String → Nat) (env : Env) (stmts : List ABStatement) :
    Option (List Nat × Nat) :=
  execAB sz lw env stmts []

/-- Deserializer state: read cursor, variable bindings, and the width of the
most recently loaded variable (consumed by `IncrementIndex::Sz`). -/
structure FBState where
  cursor : Nat
  binds : Env
  lastSz : Nat

/-- The byte substring of length `w` starting at offset `s`. -/
def listSub (l : List Nat) (s w : Nat) : List Nat := (l.drop s).take w

def evalLen (binds : Env) : LenExpr → Option Nat
  | .path s =>
    match envLookup binds s with
    | some (.scalar bs) => some (bytesToNat bs)
    | _ => none
  | .const n => some n

/-- One deserialize statement.  `returnStruct` is handled by `execFB` and is
not a mid-sequence step. -/
def stepFB (sz : String → Nat) (input : List Nat) :
    FBStatement → FBState → Option FBState
  | .createIndexVariable, st => some st
  | .loadStatementVariable name ty _use, st =>
    let w := ty.width sz
    if st.cursor + w ≤ input.length then
      some { st with binds := (name, .scalar (listSub input st.cursor w)) :: st.binds,
                     lastSz := w }
    else none
  | .incrementIndexSz, st => some { st with cursor := st.cursor + st.lastSz }
  | .incrementIndexNumber n, st => some { st with cursor := st.cursor + n }
  | .fromBytesList name ty len pad, st =>
    match evalLen st.binds len with
    | none => none
    | some count =>
      let w := sz ty
      if st.cursor + (count * w + pad) ≤ input.length then
        some { st with
          binds := (name, .arr ((List.range count).map fun k =>
            listSub input (st.cursor + k * w) w)) :: st.binds,
          cursor := st.cursor + (count * w + pad) }
      else none
  | .returnStruct _ _ _, _ => none

/-- Look up every constructed field's variable. -/
def lookupAll (binds : Env) : List String → Option (List Val)
  | [] => some []
  | n :: rest =>
    match envLookup binds n, lookupAll binds rest with
    | some v, some vs => some (v :: vs)
    | _, _ => none

/-- Run a deserialize sequence: the constructed structure (field name/value
pairs) and the final cursor. -/
def execFB (sz : String → Nat) (input : List Nat) :
    List FBStatement → FBState → Option (Env × Nat)
  | [], _ => none
  | .returnStruct _last _sname fnames :: _, st =>
    match lookupAll st.binds fnames with
    | none => none
    | some vals => some (fnames.zip vals, st.cursor)
  | stx :: rest, st => (stepFB sz input stx st).bind (execFB sz input rest)

def runFromBytes (sz : String → Nat) (input : List Nat) (stmts : List FBStatement) :
    Option (Env × Nat) :=
  execFB sz input stmts ⟨0, [], 0⟩

/-! ## Basic structural lemmas about the generator -/

theorem populate_as_bytes_parts (s : RStruct) :
    s.populate_as_bytes =
      { s with asb := { s.asb with as_bytes_stmts :=
          [ABStatement.createIndexVariable] ++
          (s.fields.filterMap fun f =>
            match f with
            | .field ⟨name, _⟩ => some (ABStatement.appendToIndex name)
            | .padding bytes => some (.padIndex bytes)
            | .lenSlot _ owning_list => some (.appendLengthToIndex owning_list)
            | .list l => some (.asBytesList l.name l.ty l.padding)) ++
          [ABStatement.returnIndex] } } := rfl

theorem populate_from_bytes_ok (s s' : RStruct)
    (h : s.populate_from_bytes = .ok s') :
    ∃ body m' i', fbBody s.fields [] 0 = .ok (body, m', i') ∧
      s' = { s with asb := { s.asb with from_bytes_stmts :=
              [FBStatement.createIndexVariable] ++ body ++
              [FBStatement.returnStruct "index" s.name (boundFieldNames s.fields)] } } := by
  unfold RStruct.populate_from_bytes at h
  cases hb : fbBody s.fields [] 0 with
  | error e =>
    rw [hb] at h
    exact absurd h (by simp)
  | ok t =>
    obtain ⟨body, m', i'⟩ := t
    rw [hb] at h
    simp only [Except.ok.injEq] at h
    exact ⟨body, m', i', rfl, h.symm⟩

theorem populate_from_bytes_error (s : RStruct) (e : String)
    (h : fbBody s.fields [] 0 = .error e) :
    s.populate_from_bytes = .error e := by
  unfold RStruct.populate_from_bytes
  rw [h]

theorem populate_asb_ok (s s' : RStruct) (h : s.populate_asb = .ok s') :
    ∃ s2, (s.populate_as_bytes).populate_from_bytes = .ok s2 ∧
      s' = { s2 with asb := { s2.asb with size := sizeParts s2.fields } } := by
  unfold RStruct.populate_asb at h
  cases hb : (s.populate_as_bytes).populate_from_bytes with
  | error e =>
    rw [hb] at h
    exact absurd h (by simp)
  | ok s2 =>
    rw [hb] at h
    simp only [Except.ok.injEq] at h
    exact ⟨s2, rfl, h.symm⟩

theorem populate_asb_error (s : RStruct) (e : String)
    (h : (s.populate_as_bytes).populate_from_bytes = .error e) :
    s.populate_asb = .error e := by
  unfold RStruct.populate_asb
  rw [h]

/-! ## Spec-side per-item mappings

These restate the spec's per-item contracts independently of the generator's
`filterMap`/`map` bodies, for comparison with the code. -/

/-- Spec: the size-sum part contributed by one item. -/
def specSizePart : StructureItem → SizeSumPart
  | .field f => .sizeofField f.name
  | .padding b => .bytes b
  | .list l => .listTimesSize l.name l.ty l.padding
  | .lenSlot ty _ => .sizeofType (RTy.from_lvl2 ty)

/-- Spec: the serialize instruction contributed by one item. -/
def specABStmt : StructureItem → ABStatement
  | .field f => .appendToIndex f.name
  | .padding b => .padIndex b
  | .lenSlot _ o => .appendLengthToIndex o
  | .list l => .asBytesList l.name l.ty l.padding

/-- Spec: the names bound by the final structure construction, `Field` and
`List` items only, in item order. -/
def specBoundNames : List StructureItem → List String
  | [] => []
  | .field f :: rest => f.name :: specBoundNames rest
  | .list l :: rest => l.name :: specBoundNames rest
  | .padding _ :: rest => specBoundNames rest
  | .lenSlot _ _ :: rest => specBoundNames rest

/-- Spec: the emitted struct-declaration fields, `Field` and `List` items
only, in item order. -/
def specSynFields : List StructureItem → List SynField
  | [] => []
  | .field f :: rest => ⟨f.name, f.ty, false⟩ :: specSynFields rest
  | .list l :: rest => ⟨l.name, l.ty, true⟩ :: specSynFields rest
  | .padding _ :: rest => specSynFields rest
  | .lenSlot _ _ :: rest => specSynFields rest

theorem sizeParts_eq_map (fs : List StructureItem) :
    sizeParts fs = fs.map specSizePart := by
  unfold sizeParts
  refine List.map_congr_left ?_
  intro a _
  cases a with
  | field f => cases f; rfl
  | padding b => rfl
  | lenSlot ty o => rfl
  | list l => rfl

theorem filterMap_ab_eq_map (fs : List StructureItem) :
    (fs.filterMap fun f =>
      match f with
      | .field ⟨name, _⟩ => some (ABStatement.appendToIndex name)
      | .padding bytes => some (.padIndex bytes)
      | .lenSlot _ owning_list => some (.appendLengthToIndex owning_list)
      | .list l => some (.asBytesList l.name l.ty l.padding)) =
      fs.map specABStmt := by
  induction fs with
  | nil => rfl
  | cons a rest ih =>
    cases a with
    | field f => cases f; simp [specABStmt, ih]
    | padding b => simp [specABStmt, ih]
    | lenSlot ty o => simp [specABStmt, ih]
    | list l => simp [specABStmt, ih]

theorem boundFieldNames_eq_spec (fs : List StructureItem) :
    boundFieldNames fs = specBoundNames fs := by
  induction fs with
  | nil => rfl
  | cons a rest ih =>
    cases a with
    | field f => cases f; simp [boundFieldNames, specBoundNames] at ih ⊢; exact ih
    | padding b => simp [boundFieldNames, specBoundNames] at ih ⊢; exact ih
    | lenSlot ty o => simp [boundFieldNames, specBoundNames] at ih ⊢; exact ih
    | list l => simp [boundFieldNames, specBoundNames] at ih ⊢; exact ih

theorem filterMap_syn_eq_spec (fs : List StructureItem) :
    fs.filterMap StructureItem.to_syn_field = specSynFields fs := by
  induction fs with
  | nil => rfl
  | cons a rest ih =>
    cases a with
    | field f => cases f; simp [StructureItem.to_syn_field, specSynFields, ih]
    | padding b => simp [StructureItem.to_syn_field, specSynFields, ih]
    | lenSlot ty o => simp [StructureItem.to_syn_field, specSynFields, ih]
    | list l => simp [StructureItem.to_syn_field, specSynFields, ih]

/-! ## Concrete example data (used by the witnesses) -/

/-- Example size assignment. -/
def exSz : String → Nat := fun t => if t = "u16" then 2 else if t = "u32" then 4 else 1

/-- Example element encodings for the list "items" (three 4-byte elements). -/
def exElems : List (List Nat) := [[1, 0, 0, 0], [2, 0, 0, 0], [3, 0, 0, 0]]

/-- Example populated environment. -/
def exEnv : Env := [("a", .scalar [7]), ("items", .arr exElems)]

/-- Example slot-width assignment. -/
def exLw : String → Nat := fun _ => 2

/-- Example message: one field, padding, a length slot and its list. -/
def exStruct : RStruct :=
  { name := "Demo"
    derives := ["Clone", "Debug", "Default"]
    is_transparent := false
    fields := [.field ⟨"a", "u8"⟩, .padding 1, .lenSlot "u16" "items",
               .list ⟨"items", "u32", .singleSlot, 2⟩]
    methods := []
    traits := []
    asb := Asb.default }

/-- The example message after `populate_asb`. -/
def exStructPopulated : RStruct :=
  ((exStruct.populate_asb).toOption).getD exStruct

/-! ## Unfolding and frame lemmas -/

theorem from_lvl2_mk (n b d : String) (fs : List StructureItem) (sp : StructSpecial) (r : Bool) :
    from_lvl2 (.mk n b d fs sp) r =
      (let step : String × List Trait × Option RStruct :=
        if r then (n ++ "Reply", [], none)
        else
          match sp with
          | .regular => (n, [], none)
          | .event opcode => (n ++ "Event", [Trait.event opcode], none)
          | .error opcode => (n ++ "Error", [Trait.error opcode], none)
          | .request opcode reply =>
            (n ++ "Request",
             [Trait.request opcode
               (match reply with
                | some rep => RTy.basic (rep.name ++ "Reply")
                | none => RTy.tuple [])],
             match reply with
             | some rep => some (from_lvl2 rep true).1
             | none => none)
      ({ name := step.1,
         derives := ["Clone", "Debug", "Default"],
         is_transparent := fs.length == 1,
         fields := fs,
         methods := [],
         traits := step.2.1,
         asb := Asb.default }, step.2.2)) := by
  rw [from_lvl2.eq_def]

/-- Frame of `populate_as_bytes`: only `asb` changes. -/
theorem frame_as_bytes (s : RStruct) :
    (s.populate_as_bytes).name = s.name ∧
    (s.populate_as_bytes).derives = s.derives ∧
    (s.populate_as_bytes).is_transparent = s.is_transparent ∧
    (s.populate_as_bytes).fields = s.fields ∧
    (s.populate_as_bytes).methods = s.methods ∧
    (s.populate_as_bytes).traits = s.traits :=
  ⟨rfl, rfl, rfl, rfl, rfl, rfl⟩

/-- Frame of `populate_from_bytes`: only `asb` changes, on success. -/
theorem frame_from_bytes (s s' : RStruct) (h : s.populate_from_bytes = .ok s') :
    s'.name = s.name ∧ s'.derives = s.derives ∧
    s'.is_transparent = s.is_transparent ∧ s'.fields = s.fields ∧
    s'.methods = s.methods ∧ s'.traits = s.traits := by
  obtain ⟨body, m', i', hb, hs'⟩ := populate_from_bytes_ok s s' h
  subst hs'
  exact ⟨rfl, rfl, rfl, rfl, rfl, rfl⟩

/-- Frame of `populate_asb`: only `asb` changes, on success. -/
theorem frame_asb (s s' : RStruct) (h : s.populate_asb = .ok s') :
    s'.name = s.name ∧ s'.derives = s.derives ∧
    s'.is_transparent = s.is_transparent ∧ s'.fields = s.fields ∧
    s'.methods = s.methods ∧ s'.traits = s.traits := by
  obtain ⟨s2, h2, hs'⟩ := populate_asb_ok s s' h
  subst hs'
  obtain ⟨e1, e2, e3, e4, e5, e6⟩ := frame_from_bytes _ _ h2
  exact ⟨e1, e2, e3, e4, e5, e6⟩

/-! ## Claim theorems: classifier and emitter -/

/-- C6: for every input message, the generated structure's transparency flag
is true iff the total number of `StructureItem`s (all kinds counted) is
exactly 1. -/
theorem spec_C6 (s : Lvl2Struct) (flag : Bool) :
    ((from_lvl2 s flag).1.is_transparent = true) ↔ s.fields.length = 1 := by
  cases s with
  | mk n b d fs sp =>
    rw [from_lvl2_mk]
    simp [Lvl2Struct.fields]

/-- C4: classifying a `Request(opcode, reply)` message with the reply flag
unset yields a structure named `name ++ "Request"` with a `Request` trait
carrying the opcode and the reply type (`replyName ++ "Reply"` when a reply is
present, the empty tuple otherwise); a present reply produces a second
structure by recursing with the flag set, which receives the suffix "Reply",
no kind-specific trait, and itself triggers no further recursion, so at most
two structures result. -/
theorem spec_C4 (nm brief desc : String) (fields : List StructureItem)
    (opcode : Nat) (reply : Option Lvl2Struct) :
    ((from_lvl2 (.mk nm brief desc fields (.request opcode reply)) false).1.name
        = nm ++ "Request") ∧
    ((from_lvl2 (.mk nm brief desc fields (.request opcode reply)) false).1.traits
        = [Trait.request opcode
            (match reply with
             | some rep => RTy.basic (rep.name ++ "Reply")
             | none => RTy.tuple [])]) ∧
    ((from_lvl2 (.mk nm brief desc fields (.request opcode reply)) false).2
        = (match reply with
           | some rep => some (from_lvl2 rep true).1
           | none => none)) ∧
    (∀ t : Lvl2Struct, (from_lvl2 t true).1.name = t.name ++ "Reply") ∧
    (∀ t : Lvl2Struct, (from_lvl2 t true).1.traits = []) ∧
    (∀ t : Lvl2Struct, (from_lvl2 t true).2 = none) := by
  refine ⟨?_, ?_, ?_, ?_, ?_, ?_⟩
  · rw [from_lvl2_mk]; simp
  · rw [from_lvl2_mk]; simp
  · rw [from_lvl2_mk]; simp
  · intro t; cases t with
    | mk n b d fs sp => rw [from_lvl2_mk]; simp [Lvl2Struct.name]
  · intro t; cases t with
    | mk n b d fs sp => rw [from_lvl2_mk]; simp
  · intro t; cases t with
    | mk n b d fs sp => rw [from_lvl2_mk]; simp

/-- C9: the emitted type declaration's fields are exactly the materialized
`Field`/`List` items in original order; it carries the transparent annotation
iff the transparency flag is set, and the derive annotation (with the derive
set itself) iff the derive set is non-empty. -/
theorem spec_C9 (s : RStruct) :
    ((s.to_syn_item_struct).fields = specSynFields s.fields) ∧
    ((s.to_syn_item_struct).ident = s.name) ∧
    ((SynAttr.reprTransparent ∈ (s.to_syn_item_struct).attrs) ↔ s.is_transparent = true) ∧
    (∀ ds, (SynAttr.deriveAttrs ds ∈ (s.to_syn_item_struct).attrs) ↔
      (ds = s.derives ∧ s.derives ≠ [])) := by
  obtain ⟨n, ds0, it, fs, ms, ts, asb⟩ := s
  refine ⟨filterMap_syn_eq_spec fs, rfl, ?_, ?_⟩
  · cases it <;> cases ds0 <;> simp [RStruct.to_syn_item_struct]
  · intro ds
    cases it <;> cases ds0 <;> simp [RStruct.to_syn_item_struct]

/-- C10: `populate_asb` and its sub-steps write only the `asb` component; the
`name`, `derives`, `is_transparent`, `fields`, `methods` and `traits`
components are unchanged. -/
theorem spec_C10 :
    (∀ s : RStruct,
      (s.populate_as_bytes).name = s.name ∧
      (s.populate_as_bytes).derives = s.derives ∧
      (s.populate_as_bytes).is_transparent = s.is_transparent ∧
      (s.populate_as_bytes).fields = s.fields ∧
      (s.populate_as_bytes).methods = s.methods ∧
      (s.populate_as_bytes).traits = s.traits) ∧
    (∀ s s' : RStruct, s.populate_from_bytes = .ok s' →
      s'.name = s.name ∧ s'.derives = s.derives ∧
      s'.is_transparent = s.is_transparent ∧ s'.fields = s.fields ∧
      s'.methods = s.methods ∧ s'.traits = s.traits) ∧
    (∀ s s' : RStruct, s.populate_asb = .ok s' →
      s'.name = s.name ∧ s'.derives = s.derives ∧
      s'.is_transparent = s.is_transparent ∧ s'.fields = s.fields ∧
      s'.methods = s.methods ∧ s'.traits = s.traits) :=
  ⟨frame_as_bytes, frame_from_bytes, frame_asb⟩

theorem spec_C10_witness :
    exStruct.populate_asb = .ok exStructPopulated ∧
    exStructPopulated.name = exStruct.name ∧
    exStructPopulated.derives = exStruct.derives ∧
    exStructPopulated.is_transparent = exStruct.is_transparent ∧
    exStructPopulated.fields = exStruct.fields ∧
    exStructPopulated.methods = exStruct.methods ∧
    exStructPopulated.traits = exStruct.traits :=
  ⟨rfl, spec_C10.2.2 exStruct exStructPopulated rfl⟩

/-- C5: the size synthesizer maps each item to exactly one size-sum part,
preserving item order, with the per-kind mapping of the spec, so the sum has
as many parts as there are items. -/
theorem spec_C5 (s s' : RStruct) (h : s.populate_asb = .ok s') :
    (s'.asb.size = s.fields.map specSizePart) ∧
    (s'.asb.size.length = s.fields.length) ∧
    (∀ f, specSizePart (.field f) = .sizeofField f.name) ∧
    (∀ b, specSizePart (.padding b) = .bytes b) ∧
    (∀ l, specSizePart (.list l) = .listTimesSize l.name l.ty l.padding) ∧
    (∀ ty o, specSizePart (.lenSlot ty o) = .sizeofType (RTy.from_lvl2 ty)) := by
  obtain ⟨s2, h2, hs'⟩ := populate_asb_ok s s' h
  have hfields : s2.fields = s.fields := (frame_from_bytes _ _ h2).2.2.2.1
  have hsize : s'.asb.size = sizeParts s.fields := by
    rw [hs']
    show sizeParts s2.fields = sizeParts s.fields
    rw [hfields]
  refine ⟨?_, ?_, fun f => rfl, fun b => rfl, fun l => rfl, fun ty o => rfl⟩
  · rw [hsize, sizeParts_eq_map]
  · rw [hsize, sizeParts_eq_map, List.length_map]

theorem spec_C5_witness :
    exStruct.populate_asb = .ok exStructPopulated ∧
    exStructPopulated.asb.size = exStruct.fields.map specSizePart ∧
    exStructPopulated.asb.size.length = exStruct.fields.length :=
  ⟨rfl, (spec_C5 exStruct exStructPopulated rfl).1,
        (spec_C5 exStruct exStructPopulated rfl).2.1⟩

/-- C3: the synthesized serialize sequence is a cursor initialization, then
exactly one instruction per item in order with the spec's per-kind mapping,
then a return-cursor instruction; the length-slot instruction appends the
current element count of the owning list (the semantics of
`AppendLengthToIndex` depends only on the list's value at serialization
time). -/
theorem spec_C3 (s : RStruct) :
    ((s.populate_as_bytes).asb.as_bytes_stmts =
      ABStatement.createIndexVariable ::
        (s.fields.map specABStmt ++ [ABStatement.returnIndex])) ∧
    (∀ f, specABStmt (.field f) = .appendToIndex f.name) ∧
    (∀ b, specABStmt (.padding b) = .padIndex b) ∧
    (∀ ty o, specABStmt (.lenSlot ty o) = .appendLengthToIndex o) ∧
    (∀ l, specABStmt (.list l) = .asBytesList l.name l.ty l.padding) ∧
    (∀ sz lw env o es buf, envLookup env o = some (.arr es) →
      stepAB sz lw env (.appendLengthToIndex o) buf =
        some (buf ++ natToBytes (lw o) es.length)) := by
  refine ⟨?_, fun f => rfl, fun b => rfl, fun ty o => rfl, fun l => rfl, ?_⟩
  · show ABStatement.createIndexVariable ::
        ((s.fields.filterMap fun f =>
          match f with
          | .field ⟨name, _⟩ => some (ABStatement.appendToIndex name)
          | .padding bytes => some (.padIndex bytes)
          | .lenSlot _ owning_list => some (.appendLengthToIndex owning_list)
          | .list l => some (.asBytesList l.name l.ty l.padding)) ++
          [ABStatement.returnIndex]) =
      ABStatement.createIndexVariable ::
        (s.fields.map specABStmt ++ [ABStatement.returnIndex])
    rw [filterMap_ab_eq_map]
  · intro sz lw env o es buf h
    simp [stepAB, h]

theorem spec_C3_witness :
    ((exStruct.populate_as_bytes).asb.as_bytes_stmts =
      ABStatement.createIndexVariable ::
        (exStruct.fields.map specABStmt ++ [ABStatement.returnIndex])) ∧
    stepAB exSz exLw exEnv (.appendLengthToIndex "items") [] =
      some ([] ++ natToBytes (exLw "items") exElems.length) :=
  ⟨(spec_C3 exStruct).1,
   (spec_C3 exStruct).2.2.2.2.2 exSz exLw exEnv "items" exElems [] rfl⟩

/-! ## Structural lemmas about the deserialize synthesizer -/

/-- Number of `LenSlot` items. -/
def numLenSlots : List StructureItem → Nat
  | [] => 0
  | .lenSlot _ _ :: r => numLenSlots r + 1
  | _ :: r => numLenSlots r

/-- `fbBody` over a concatenation composes: the first part runs with the
initial scratch state, the second continues from where the first stopped. -/
theorem fbBody_append : ∀ (xs ys : List StructureItem) (m : LenMap) (i : Nat),
    fbBody (xs ++ ys) m i =
      match fbBody xs m i with
      | .error e => .error e
      | .ok (b1, m1, i1) =>
        match fbBody ys m1 i1 with
        | .error e => .error e
        | .ok (b2, m2, i2) => .ok (b1 ++ b2, m2, i2) := by
  intro xs
  induction xs with
  | nil =>
    intro ys m i
    simp only [List.nil_append, fbBody]
    cases hy : fbBody ys m i with
    | error e => rfl
    | ok t => obtain ⟨b2, m2, i2⟩ := t; simp
  | cons f rest ih =>
    intro ys m i
    cases f with
    | field fi =>
      obtain ⟨name, ty⟩ := fi
      simp only [List.cons_append, fbBody, List.append_eq]
      rw [ih]
      cases hr : fbBody rest m i with
      | error e => simp
      | ok t1 =>
        obtain ⟨b1, m1, i1⟩ := t1
        cases hy : fbBody ys m1 i1 with
        | error e => simp [hy]
        | ok t2 => obtain ⟨b2, m2, i2⟩ := t2; simp [hy]
    | padding b =>
      simp only [List.cons_append, fbBody, List.append_eq]
      rw [ih]
      cases hr : fbBody rest m i with
      | error e => simp
      | ok t1 =>
        obtain ⟨b1, m1, i1⟩ := t1
        cases hy : fbBody ys m1 i1 with
        | error e => simp [hy]
        | ok t2 => obtain ⟨b2, m2, i2⟩ := t2; simp [hy]
    | lenSlot ty o =>
      simp only [List.cons_append, fbBody, List.append_eq]
      rw [ih]
      cases hr : fbBody rest (lenMapInsert m o ("len" ++ natRepr i)) (i + 1) with
      | error e => simp
      | ok t1 =>
        obtain ⟨b1, m1, i1⟩ := t1
        cases hy : fbBody ys m1 i1 with
        | error e => simp [hy]
        | ok t2 => obtain ⟨b2, m2, i2⟩ := t2; simp [hy]
    | list l =>
      simp only [List.cons_append, fbBody, List.append_eq]
      cases hs : l.list_length.single_item with
      | some u =>
        cases hrem : lenMapRemove m l.name with
        | none => simp
        | some p =>
          obtain ⟨tmp, m2⟩ := p
          simp only [ih]
          cases hr : fbBody rest m2 i with
          | error e => simp [hr]
          | ok t1 =>
            obtain ⟨b1, m1, i1⟩ := t1
            cases hy : fbBody ys m1 i1 with
            | error e => simp [hr, hy]
            | ok t2 => obtain ⟨b2, m2', i2⟩ := t2; simp [hr, hy]
      | none =>
        simp only [ih]
        cases hr : fbBody rest m i with
        | error e => simp [hr]
        | ok t1 =>
          obtain ⟨b1, m1, i1⟩ := t1
          cases hy : fbBody ys m1 i1 with
          | error e => simp [hr, hy]
          | ok t2 => obtain ⟨b2, m2, i2⟩ := t2; simp [hr, hy]

/-- Success of `fbBody` through `fbCons` decomposes. -/
theorem fbCons_eq_ok (stmts : List FBStatement)
    (r : Except String (List FBStatement × LenMap × Nat))
    (b : List FBStatement) (m' : LenMap) (i' : Nat)
    (h : fbCons stmts r = .ok (b, m', i')) :
    ∃ tail, r = .ok (tail, m', i') ∧ b = stmts ++ tail := by
  cases r with
  | error e => simp [fbCons] at h
  | ok t =>
    obtain ⟨tail, mm, ii⟩ := t
    simp only [fbCons_ok, Except.ok.injEq, Prod.mk.injEq] at h
    obtain ⟨h1, h2, h3⟩ := h
    exact ⟨tail, by rw [h2, h3], h1.symm⟩

/-- On success the counter has been incremented once per `LenSlot`. -/
theorem fbBody_counter : ∀ (xs : List StructureItem) (m : LenMap) (i : Nat)
    (b : List FBStatement) (m' : LenMap) (i' : Nat),
    fbBody xs m i = .ok (b, m', i') → i' = i + numLenSlots xs := by
  intro xs
  induction xs with
  | nil =>
    intro m i b m' i' h
    simp only [fbBody, Except.ok.injEq, Prod.mk.injEq] at h
    obtain ⟨-, -, h3⟩ := h
    simp [numLenSlots, ← h3]
  | cons f rest ih =>
    intro m i b m' i' h
    cases f with
    | field fi =>
      obtain ⟨name, ty⟩ := fi
      simp only [fbBody] at h
      obtain ⟨tail, hr, -⟩ := fbCons_eq_ok _ _ _ _ _ h
      have := ih _ _ _ _ _ hr
      have hred : numLenSlots (StructureItem.field ⟨name, ty⟩ :: rest) = numLenSlots rest := rfl
      omega
    | padding bb =>
      simp only [fbBody] at h
      obtain ⟨tail, hr, -⟩ := fbCons_eq_ok _ _ _ _ _ h
      have := ih _ _ _ _ _ hr
      have hred : numLenSlots (StructureItem.padding bb :: rest) = numLenSlots rest := rfl
      omega
    | lenSlot ty o =>
      simp only [fbBody] at h
      obtain ⟨tail, hr, -⟩ := fbCons_eq_ok _ _ _ _ _ h
      have := ih _ _ _ _ _ hr
      have hred : numLenSlots (StructureItem.lenSlot ty o :: rest) = numLenSlots rest + 1 := rfl
      omega
    | list l =>
      simp only [fbBody] at h
      cases hs : l.list_length.single_item with
      | some u =>
        rw [hs] at h
        cases hrem : lenMapRemove m l.name with
        | none => rw [hrem] at h; exact absurd h (by simp)
        | some p =>
          obtain ⟨tmp, m2⟩ := p
          rw [hrem] at h
          simp only [] at h
          obtain ⟨tail, hr, -⟩ := fbCons_eq_ok _ _ _ _ _ h
          have := ih _ _ _ _ _ hr
          have hred : numLenSlots (StructureItem.list l :: rest) = numLenSlots rest := rfl
          omega
      | none =>
        rw [hs] at h
        simp only [] at h
        obtain ⟨tail, hr, -⟩ := fbCons_eq_ok _ _ _ _ _ h
        have := ih _ _ _ _ _ hr
        have hred : numLenSlots (StructureItem.list l :: rest) = numLenSlots rest := rfl
        omega

/-! ## Claim theorems: deserialize synthesizer structure and error handling -/

/-- C1: when a single-slot `List` finds no entry in the scratch mapping,
deserialize synthesis aborts immediately with a diagnostic naming the
offending list, and no instruction sequence (and no populated structure)
is produced. -/
theorem spec_C1 (s : RStruct) (pre : List StructureItem) (l : ListItem)
    (post : List StructureItem) (b1 : List FBStatement) (m1 : LenMap) (i1 : Nat)
    (hfields : s.fields = pre ++ StructureItem.list l :: post)
    (hsingle : l.list_length.single_item.isSome = true)
    (hpre : fbBody pre [] 0 = .ok (b1, m1, i1))
    (hmiss : lenMapRemove m1 l.name = none) :
    (fbBody s.fields [] 0 = .error ("Bad len map: Cannot find len for " ++ l.name)) ∧
    (s.populate_from_bytes = .error ("Bad len map: Cannot find len for " ++ l.name)) ∧
    (s.populate_asb = .error ("Bad len map: Cannot find len for " ++ l.name)) ∧
    (∀ s', s.populate_from_bytes ≠ .ok s') ∧
    (∀ s', s.populate_asb ≠ .ok s') := by
  have hbody : fbBody s.fields [] 0 =
      .error ("Bad len map: Cannot find len for " ++ l.name) := by
    rw [hfields, fbBody_append, hpre]
    cases hs : l.list_length.single_item with
    | none => rw [hs] at hsingle; simp at hsingle
    | some u => simp [fbBody, hs, hmiss]
  have hfb : s.populate_from_bytes =
      .error ("Bad len map: Cannot find len for " ++ l.name) :=
    populate_from_bytes_error s _ hbody
  have hab : (s.populate_as_bytes).populate_from_bytes =
      .error ("Bad len map: Cannot find len for " ++ l.name) := by
    unfold RStruct.populate_from_bytes
    simp only [RStruct.populate_as_bytes]
    rw [hbody]
  have hasb : s.populate_asb =
      .error ("Bad len map: Cannot find len for " ++ l.name) :=
    populate_asb_error s _ hab
  refine ⟨hbody, hfb, hasb, ?_, ?_⟩
  · intro s' hok
    rw [hok] at hfb
    exact absurd hfb (by simp)
  · intro s' hok
    rw [hok] at hasb
    exact absurd hasb (by simp)

/-- Example: scenario D, a single-slot list with no matching length slot. -/
def exStructD : RStruct :=
  { name := "Bad"
    derives := ["Clone", "Debug", "Default"]
    is_transparent := true
    fields := [.list ⟨"items", "u32", .singleSlot, 0⟩]
    methods := []
    traits := []
    asb := Asb.default }

theorem spec_C1_witness :
    exStructD.populate_from_bytes =
      .error ("Bad len map: Cannot find len for " ++ "items") ∧
    exStructD.populate_asb =
      .error ("Bad len map: Cannot find len for " ++ "items") :=
  ⟨(spec_C1 exStructD [] ⟨"items", "u32", .singleSlot, 0⟩ [] [] [] 0
      rfl rfl rfl rfl).2.1,
   (spec_C1 exStructD [] ⟨"items", "u32", .singleSlot, 0⟩ [] [] [] 0
      rfl rfl rfl rfl).2.2.1⟩

/-- C2: in the synthesized deserialize sequence the counter starts at 0 and
increments once per `LenSlot`; the `LenSlot` preceded by `k` slots allocates
the fresh temporary `tempName k`, emits a read of the slot's type into it and
records `owningListName ↦ tempName k` in the scratch mapping; temporaries are
pairwise distinct; the final construction statement binds exactly the `Field`
and `List` variables in original item order, and `LenSlot` items contribute
no bound variable to it. -/
theorem spec_C2 (s : RStruct) (body : List FBStatement) (m' : LenMap) (i' : Nat)
    (h : fbBody s.fields [] 0 = .ok (body, m', i')) :
    (i' = numLenSlots s.fields) ∧
    (∀ pre ty o post, s.fields = pre ++ StructureItem.lenSlot ty o :: post →
      ∃ b1 m1 tail,
        fbBody pre [] 0 = .ok (b1, m1, numLenSlots pre) ∧
        body = b1 ++ [FBStatement.loadStatementVariable (tempName (numLenSlots pre))
                        (RTy.from_lvl2 ty) true,
                      FBStatement.incrementIndexSz] ++ tail ∧
        fbBody post (lenMapInsert m1 o (tempName (numLenSlots pre)))
          (numLenSlots pre + 1) = .ok (tail, m', i')) ∧
    (∀ j k : Nat, j ≠ k → tempName j ≠ tempName k) ∧
    (s.populate_from_bytes = .ok { s with asb := { s.asb with from_bytes_stmts :=
        FBStatement.createIndexVariable :: (body ++
        [FBStatement.returnStruct "index" s.name (specBoundNames s.fields)]) } }) ∧
    (∀ ty o rest, specBoundNames (StructureItem.lenSlot ty o :: rest) = specBoundNames rest) ∧
    (∀ b rest, specBoundNames (StructureItem.padding b :: rest) = specBoundNames rest) ∧
    (∀ f rest, specBoundNames (StructureItem.field f :: rest) = f.name :: specBoundNames rest) ∧
    (∀ l rest, specBoundNames (StructureItem.list l :: rest) = l.name :: specBoundNames rest) := by
  refine ⟨by have := fbBody_counter _ _ _ _ _ _ h; omega, ?_, ?_, ?_,
          fun ty o rest => rfl, fun b rest => rfl, fun f rest => rfl, fun l rest => rfl⟩
  · intro pre ty o post hdecomp
    rw [hdecomp, fbBody_append] at h
    cases hpre : fbBody pre [] 0 with
    | error e => rw [hpre] at h; exact absurd h (by simp)
    | ok t1 =>
      obtain ⟨b1, m1, i1⟩ := t1
      rw [hpre] at h
      have hi1 : i1 = numLenSlots pre := by
        have := fbBody_counter _ _ _ _ _ _ hpre
        omega
      subst hi1
      simp only [fbBody] at h
      cases hpost : fbBody post
          (lenMapInsert m1 o ("len" ++ natRepr (numLenSlots pre)))
          (numLenSlots pre + 1) with
      | error e => rw [hpost] at h; exact absurd h (by simp)
      | ok t2 =>
        obtain ⟨tail, mf, jf⟩ := t2
        rw [hpost] at h
        simp only [fbCons_ok, Except.ok.injEq, Prod.mk.injEq] at h
        obtain ⟨hb, hm, hj⟩ := h
        refine ⟨b1, m1, tail, rfl, ?_, ?_⟩
        · rw [← hb]; simp [tempName]
        · rw [← hm, ← hj]; exact hpost
  · intro j k hjk heq
    exact hjk (tempName_inj heq)
  · unfold RStruct.populate_from_bytes
    rw [h, boundFieldNames_eq_spec]
    rfl

theorem spec_C2_witness :
    fbBody exStruct.fields [] 0 =
      .ok ([FBStatement.loadStatementVariable "a" (RTy.basic "u8") true,
            FBStatement.incrementIndexSz,
            FBStatement.incrementIndexNumber 1,
            FBStatement.loadStatementVariable "len0" (RTy.basic "u16") true,
            FBStatement.incrementIndexSz,
            FBStatement.fromBytesList "items" "u32" (LenExpr.path "len0") 2], [], 1) ∧
    1 = numLenSlots exStruct.fields ∧
    exStruct.populate_from_bytes = .ok { exStruct with asb := { exStruct.asb with
      from_bytes_stmts :=
        FBStatement.createIndexVariable ::
          ([FBStatement.loadStatementVariable "a" (RTy.basic "u8") true,
            FBStatement.incrementIndexSz,
            FBStatement.incrementIndexNumber 1,
            FBStatement.loadStatementVariable "len0" (RTy.basic "u16") true,
            FBStatement.incrementIndexSz,
            FBStatement.fromBytesList "items" "u32" (LenExpr.path "len0") 2] ++
          [FBStatement.returnStruct "index" exStruct.name
            (specBoundNames exStruct.fields)]) } } :=
  ⟨rfl,
   (spec_C2 exStruct _ [] 1 rfl).1,
   (spec_C2 exStruct _ [] 1 rfl).2.2.2.1⟩

/-- C8: deserialize synthesis performs no drained-mapping check: leftover
scratch-mapping entries (length slots no list consumed) do not prevent
success; the full instruction sequence is produced and overall generation
completes. -/
theorem spec_C8 (s : RStruct) (body : List FBStatement) (m' : LenMap) (i' : Nat)
    (h : fbBody s.fields [] 0 = .ok (body, m', i'))
    (hleft : m' ≠ []) :
    (s.populate_from_bytes = .ok { s with asb := { s.asb with from_bytes_stmts :=
        FBStatement.createIndexVariable :: (body ++
        [FBStatement.returnStruct "index" s.name (boundFieldNames s.fields)]) } }) ∧
    (∃ s2, s.populate_asb = .ok s2) ∧
    (∃ o t, (o, t) ∈ m') := by
  have h1 : s.populate_from_bytes = .ok { s with asb := { s.asb with from_bytes_stmts :=
      FBStatement.createIndexVariable :: (body ++
      [FBStatement.returnStruct "index" s.name (boundFieldNames s.fields)]) } } := by
    unfold RStruct.populate_from_bytes
    rw [h]
    rfl
  have h2 : (s.populate_as_bytes).populate_from_bytes = .ok
      { s.populate_as_bytes with asb := { (s.populate_as_bytes).asb with from_bytes_stmts :=
        FBStatement.createIndexVariable :: (body ++
        [FBStatement.returnStruct "index" (s.populate_as_bytes).name
          (boundFieldNames (s.populate_as_bytes).fields)]) } } := by
    unfold RStruct.populate_from_bytes
    have hfe : (s.populate_as_bytes).fields = s.fields := rfl
    rw [hfe, h]
    rfl
  refine ⟨h1, ?_, ?_⟩
  · exact ⟨_, by unfold RStruct.populate_asb; rw [h2]⟩
  · cases m' with
    | nil => exact absurd rfl hleft
    | cons p rest =>
      obtain ⟨o, t⟩ := p
      exact ⟨o, t, by simp⟩

/-- Example: a length slot that no list ever consumes. -/
def exStruct8 : RStruct :=
  { name := "Unused"
    derives := ["Clone", "Debug", "Default"]
    is_transparent := true
    fields := [.lenSlot "u16" "xs"]
    methods := []
    traits := []
    asb := Asb.default }

theorem spec_C8_witness :
    exStruct8.populate_from_bytes = .ok { exStruct8 with asb := { exStruct8.asb with
      from_bytes_stmts :=
        FBStatement.createIndexVariable ::
          ([FBStatement.loadStatementVariable "len0" (RTy.basic "u16") true,
            FBStatement.incrementIndexSz] ++
          [FBStatement.returnStruct "index" exStruct8.name
            (boundFieldNames exStruct8.fields)]) } } :=
  (spec_C8 exStruct8
    [FBStatement.loadStatementVariable "len0" (RTy.basic "u16") true,
     FBStatement.incrementIndexSz]
    [("xs", "len0")] 1 rfl (by simp)).1

/-! ## Round-trip machinery

Byte-level helper lemmas relating the serializer's buffer layout to the
deserializer's reads. -/

/-- The bytes one item contributes to the serialized buffer (the meaning of
the single serialize instruction emitted for it). -/
def itemBytes (lw : String → Nat) (env : Env) : StructureItem → List Nat
  | .field f =>
    match envLookup env f.name with
    | some (.scalar bs) => bs
    | _ => []
  | .padding b => List.replicate b 0
  | .lenSlot _ o =>
    match envLookup env o with
    | some (.arr es) => natToBytes (lw o) es.length
    | _ => []
  | .list l =>
    match envLookup env l.name with
    | some (.arr es) => es.flatten ++ List.replicate l.padding 0
    | _ => []

/-- All bytes of a message, in item order. -/
def msgBytes (lw : String → Nat) (env : Env) (items : List StructureItem) : List Nat :=
  (items.map (itemBytes lw env)).flatten

theorem msgBytes_nil (lw : String → Nat) (env : Env) : msgBytes lw env [] = [] := rfl

theorem msgBytes_cons (lw : String → Nat) (env : Env) (it : StructureItem)
    (rest : List StructureItem) :
    msgBytes lw env (it :: rest) = itemBytes lw env it ++ msgBytes lw env rest := by
  simp [msgBytes]

theorem listSub_exact (a b c : List Nat) (w : Nat) (hb : b.length = w) :
    listSub (a ++ (b ++ c)) a.length w = b := by
  rw [listSub, List.drop_left]
  exact List.take_left' hb

theorem flatten_length_const (es : List (List Nat)) (w : Nat)
    (h : ∀ e ∈ es, e.length = w) : es.flatten.length = es.length * w := by
  induction es with
  | nil => simp
  | cons e rest ih =>
    simp only [List.flatten_cons, List.length_append, List.length_cons]
    rw [h e (by simp), ih (fun x hx => h x (by simp [hx]))]
    ring

theorem listSub_flatten_elem :
    ∀ (es : List (List Nat)) (w : Nat) (pre post : List Nat) (k : Nat)
      (hw : ∀ e ∈ es, e.length = w) (hk : k < es.length),
      listSub (pre ++ (es.flatten ++ post)) (pre.length + k * w) w = es[k] := by
  intro es
  induction es with
  | nil => intro w pre post k hw hk; simp at hk
  | cons e rest ih =>
    intro w pre post k hw hk
    cases k with
    | zero =>
      simp only [Nat.zero_mul, Nat.add_zero, List.flatten_cons, List.getElem_cons_zero]
      rw [List.append_assoc e rest.flatten post]
      exact listSub_exact pre e (rest.flatten ++ post) w (hw e (by simp))
    | succ k' =>
      have he : e.length = w := hw e (by simp)
      have hk' : k' < rest.length := by simpa using Nat.lt_of_succ_lt_succ hk
      have hpos : pre.length + (k' + 1) * w = (pre ++ e).length + k' * w := by
        simp [List.length_append, he]
        ring
      simp only [List.flatten_cons, List.getElem_cons_succ, hpos, List.append_assoc]
      rw [← List.append_assoc pre e (rest.flatten ++ post)]
      exact ih w (pre ++ e) post k' (fun x hx => hw x (by simp [hx])) hk'

theorem range_map_listSub (es : List (List Nat)) (w : Nat) (pre post : List Nat)
    (hw : ∀ e ∈ es, e.length = w) :
    (List.range es.length).map
      (fun k => listSub (pre ++ (es.flatten ++ post)) (pre.length + k * w) w) = es := by
  refine List.ext_getElem (by simp) ?_
  intro i h1 h2
  have hi : i < es.length := by simpa using h2
  rw [List.getElem_map]
  rw [List.getElem_range]
  exact listSub_flatten_elem es w pre post i hw hi

theorem envLookup_cons (n0 n : String) (v0 : Val) (binds : Env) :
    envLookup ((n0, v0) :: binds) n = if n0 = n then some v0 else envLookup binds n := rfl

/-- `lookupAll` succeeds when every name is bound, and the constructed
structure's lookups coincide with the binding environment's. -/
theorem lookupAll_zip :
    ∀ (fnames : List String) (binds : Env),
      (∀ n ∈ fnames, ∃ v, envLookup binds n = some v) →
      ∃ vals, lookupAll binds fnames = some vals ∧
        ∀ n ∈ fnames, envLookup (fnames.zip vals) n = envLookup binds n := by
  intro fnames
  induction fnames with
  | nil => intro binds h; exact ⟨[], rfl, by simp⟩
  | cons n0 rest ih =>
    intro binds h
    obtain ⟨v0, hv0⟩ := h n0 (by simp)
    obtain ⟨vals, hvals, hlook⟩ := ih binds (fun n hn => h n (by simp [hn]))
    refine ⟨v0 :: vals, ?_, ?_⟩
    · simp [lookupAll, hv0, hvals]
    · intro n hn
      simp only [List.zip_cons_cons]
      rw [envLookup_cons]
      by_cases heq : n0 = n
      · rw [if_pos heq, ← hv0, heq]
      · rw [if_neg heq]
        have hn' : n ∈ rest := by
          rcases List.mem_cons.mp hn with h1 | h1
          · exact absurd h1.symm heq
          · exact h1
        exact hlook n hn'

/-! ## Well-formedness of a populated instance -/

/-- Per-item agreement between the environment, the size assignment and the
slot-width assignment: fields are bound to encodings of their type's width,
each length slot's owning list is bound and its count fits the slot (whose
width is the slot type's size), and each list is bound to elements of the
element type's width, with a direct length specification matching the actual
count. -/
def itemOKb (sz lw : String → Nat) (env : Env) : StructureItem → Bool
  | .field f =>
    match envLookup env f.name with
    | some (.scalar bs) => bs.length == sz f.ty
    | _ => false
  | .padding _ => true
  | .lenSlot ty o =>
    match envLookup env o with
    | some (.arr es) => (lw o == sz ty) && decide (es.length < 256 ^ lw o)
    | _ => false
  | .list l =>
    match envLookup env l.name with
    | some (.arr es) =>
      es.all (fun e => e.length == sz l.ty) &&
      (match l.list_length with
       | .singleSlot => true
       | .direct n => n == es.length)
    | _ => false

/-- No `Field` or `List` shares its name with an allocatable temporary. -/
def tempFresh (fields : List StructureItem) : Bool :=
  (boundFieldNames fields).all fun n =>
    ((List.range (numLenSlots fields)).map tempName).all fun t => n != t

/-- A well-formed populated instance of a message. -/
def msgWF (sz lw : String → Nat) (env : Env) (fields : List StructureItem) : Bool :=
  fields.all (itemOKb sz lw env) && tempFresh fields

/-- The count recorded for a list name. -/
def envCount (env : Env) (o : String) : Nat :=
  match envLookup env o with
  | some (.arr es) => es.length
  | _ => 0

/-- Scratch-map invariant: every recorded entry points at a temporary bound
to the encoded current count of its owning list. -/
def MapInv (env : Env) (lw : String → Nat) (m : LenMap) (binds : Env) (i : Nat) : Prop :=
  ∀ o t, (o, t) ∈ m →
    (∃ k, k < i ∧ t = tempName k) ∧
    envLookup binds t = some (.scalar (natToBytes (lw o) (envCount env o))) ∧
    envCount env o < 256 ^ lw o

/-! ## Serializer simulation -/

theorem execAB_sim :
    ∀ (items : List StructureItem) (sz lw : String → Nat) (env : Env) (buf : List Nat),
      (∀ it ∈ items, itemOKb sz lw env it = true) →
      execAB sz lw env (items.map specABStmt ++ [ABStatement.returnIndex]) buf =
        some (buf ++ msgBytes lw env items, (buf ++ msgBytes lw env items).length) := by
  intro items
  induction items with
  | nil =>
    intro sz lw env buf hok
    simp [execAB, msgBytes]
  | cons it rest ih =>
    intro sz lw env buf hok
    have hit : itemOKb sz lw env it = true := hok it (by simp)
    have hrest : ∀ x ∈ rest, itemOKb sz lw env x = true :=
      fun x hx => hok x (by simp [hx])
    cases it with
    | field f =>
      simp only [itemOKb] at hit
      cases hv : envLookup env f.name with
      | none => rw [hv] at hit; simp at hit
      | some v =>
        cases v with
        | arr es => rw [hv] at hit; simp at hit
        | scalar bs =>
          simp only [List.map_cons, specABStmt, List.cons_append]
          show (stepAB sz lw env (.appendToIndex f.name) buf).bind
              (execAB sz lw env (rest.map specABStmt ++ [ABStatement.returnIndex])) = _
          rw [show stepAB sz lw env (.appendToIndex f.name) buf = some (buf ++ bs) by
            simp [stepAB, hv]]
          simp only [Option.some_bind]
          rw [ih sz lw env (buf ++ bs) hrest]
          rw [msgBytes_cons]
          simp [itemBytes, hv]
    | padding b =>
      simp only [List.map_cons, specABStmt, List.cons_append]
      show (stepAB sz lw env (.padIndex b) buf).bind
          (execAB sz lw env (rest.map specABStmt ++ [ABStatement.returnIndex])) = _
      rw [show stepAB sz lw env (.padIndex b) buf = some (buf ++ List.replicate b 0) from rfl]
      simp only [Option.some_bind]
      rw [ih sz lw env _ hrest, msgBytes_cons]
      simp [itemBytes]
    | lenSlot ty o =>
      simp only [itemOKb] at hit
      cases hv : envLookup env o with
      | none => rw [hv] at hit; simp at hit
      | some v =>
        cases v with
        | scalar bs => rw [hv] at hit; simp at hit
        | arr es =>
          simp only [List.map_cons, specABStmt, List.cons_append]
          show (stepAB sz lw env (.appendLengthToIndex o) buf).bind
              (execAB sz lw env (rest.map specABStmt ++ [ABStatement.returnIndex])) = _
          rw [show stepAB sz lw env (.appendLengthToIndex o) buf =
              some (buf ++ natToBytes (lw o) es.length) by simp [stepAB, hv]]
          simp only [Option.some_bind]
          rw [ih sz lw env _ hrest, msgBytes_cons]
          simp [itemBytes, hv]
    | list l =>
      simp only [itemOKb] at hit
      cases hv : envLookup env l.name with
      | none => rw [hv] at hit; simp at hit
      | some v =>
        cases v with
        | scalar bs => rw [hv] at hit; simp at hit
        | arr es =>
          simp only [List.map_cons, specABStmt, List.cons_append]
          show (stepAB sz lw env (.asBytesList l.name l.ty l.padding) buf).bind
              (execAB sz lw env (rest.map specABStmt ++ [ABStatement.returnIndex])) = _
          rw [show stepAB sz lw env (.asBytesList l.name l.ty l.padding) buf =
              some (buf ++ es.flatten ++ List.replicate l.padding 0) by simp [stepAB, hv]]
          simp only [Option.some_bind]
          rw [ih sz lw env _ hrest, msgBytes_cons]
          simp [itemBytes, hv]

/-! ## Deserializer step lemmas -/

theorem execFB_cons_load (sz : String → Nat) (input : List Nat) (name : String)
    (ty : RTy) (use : Bool) (rest : List FBStatement) (st : FBState) :
    execFB sz input (.loadStatementVariable name ty use :: rest) st =
      (stepFB sz input (.loadStatementVariable name ty use) st).bind
        (execFB sz input rest) := rfl

theorem execFB_cons_incSz (sz : String → Nat) (input : List Nat)
    (rest : List FBStatement) (st : FBState) :
    execFB sz input (.incrementIndexSz :: rest) st =
      execFB sz input rest { st with cursor := st.cursor + st.lastSz } := rfl

theorem execFB_cons_incNum (sz : String → Nat) (input : List Nat) (n : Nat)
    (rest : List FBStatement) (st : FBState) :
    execFB sz input (.incrementIndexNumber n :: rest) st =
      execFB sz input rest { st with cursor := st.cursor + n } := rfl

theorem execFB_cons_list (sz : String → Nat) (input : List Nat) (name : String)
    (tyn : Lvl2Type) (len : LenExpr) (pad : Nat) (rest : List FBStatement) (st : FBState) :
    execFB sz input (.fromBytesList name tyn len pad :: rest) st =
      (stepFB sz input (.fromBytesList name tyn len pad) st).bind
        (execFB sz input rest) := rfl

theorem stepFB_load_pos (sz : String → Nat) (input : List Nat) (name : String)
    (ty : RTy) (use : Bool) (st : FBState)
    (h : st.cursor + ty.width sz ≤ input.length) :
    stepFB sz input (.loadStatementVariable name ty use) st =
      some { st with
        binds := (name, .scalar (listSub input st.cursor (ty.width sz))) :: st.binds,
        lastSz := ty.width sz } := by
  simp [stepFB, if_pos h]

theorem stepFB_list_pos (sz : String → Nat) (input : List Nat) (name : String)
    (tyn : Lvl2Type) (len : LenExpr) (pad : Nat) (st : FBState) (count : Nat)
    (hlen : evalLen st.binds len = some count)
    (h : st.cursor + (count * sz tyn + pad) ≤ input.length) :
    stepFB sz input (.fromBytesList name tyn len pad) st =
      some { st with
        binds := (name, .arr ((List.range count).map fun k =>
          listSub input (st.cursor + k * sz tyn) (sz tyn))) :: st.binds,
        cursor := st.cursor + (count * sz tyn + pad) } := by
  simp [stepFB, hlen, if_pos h]

/-- A successful removal returns an entry of the map, and keeps only entries
of the map. -/
theorem lenMapRemove_mem :
    ∀ (m : LenMap) (k v : String) (m2 : LenMap),
      lenMapRemove m k = some (v, m2) →
      (k, v) ∈ m ∧ ∀ p ∈ m2, p ∈ m := by
  intro m
  induction m with
  | nil => intro k v m2 h; simp [lenMapRemove] at h
  | cons p0 rest ih =>
    intro k v m2 h
    obtain ⟨k0, v0⟩ := p0
    simp only [lenMapRemove] at h
    by_cases hk : k0 = k
    · rw [if_pos hk] at h
      simp only [Option.some.injEq, Prod.mk.injEq] at h
      obtain ⟨h1, h2⟩ := h
      subst h1 h2 hk
      exact ⟨by simp, fun p hp => by simp [hp]⟩
    · rw [if_neg hk] at h
      cases hr : lenMapRemove rest k with
      | none => rw [hr] at h; simp at h
      | some q =>
        obtain ⟨v', m2'⟩ := q
        rw [hr] at h
        simp only [Option.map_some', Option.some.injEq, Prod.mk.injEq] at h
        obtain ⟨h1, h2⟩ := h
        obtain ⟨hmem, hsub⟩ := ih k v' m2' hr
        subst h1
        refine ⟨List.mem_cons_of_mem _ hmem, ?_⟩
        intro p hp
        rw [← h2] at hp
        rcases List.mem_cons.mp hp with h3 | h3
        · simp [h3]
        · exact List.mem_cons_of_mem _ (hsub p h3)

theorem exec_load_pair (sz : String → Nat) (input : List Nat) (name : String)
    (tyn : String) (use : Bool) (rest : List FBStatement)
    (cursor : Nat) (binds : Env) (lastSz : Nat)
    (h : cursor + sz tyn ≤ input.length) :
    execFB sz input
        (.loadStatementVariable name (RTy.basic tyn) use :: .incrementIndexSz :: rest)
        ⟨cursor, binds, lastSz⟩ =
      execFB sz input rest
        ⟨cursor + sz tyn,
         (name, .scalar (listSub input cursor (sz tyn))) :: binds, sz tyn⟩ := by
  rw [execFB_cons_load,
    stepFB_load_pos sz input name (RTy.basic tyn) use ⟨cursor, binds, lastSz⟩ h]
  rfl

theorem exec_pad_step (sz : String → Nat) (input : List Nat) (n : Nat)
    (rest : List FBStatement) (cursor : Nat) (binds : Env) (lastSz : Nat) :
    execFB sz input (.incrementIndexNumber n :: rest) ⟨cursor, binds, lastSz⟩ =
      execFB sz input rest ⟨cursor + n, binds, lastSz⟩ := rfl

theorem exec_list_step (sz : String → Nat) (input : List Nat) (name : String)
    (tyn : Lvl2Type) (len : LenExpr) (pad : Nat) (rest : List FBStatement)
    (cursor : Nat) (binds : Env) (lastSz : Nat) (count : Nat)
    (hlen : evalLen binds len = some count)
    (h : cursor + (count * sz tyn + pad) ≤ input.length) :
    execFB sz input (.fromBytesList name tyn len pad :: rest) ⟨cursor, binds, lastSz⟩ =
      execFB sz input rest
        ⟨cursor + (count * sz tyn + pad),
         (name, .arr ((List.range count).map fun k =>
            listSub input (cursor + k * sz tyn) (sz tyn))) :: binds,
         lastSz⟩ := by
  rw [execFB_cons_list,
    stepFB_list_pos sz input name tyn len pad ⟨cursor, binds, lastSz⟩ count hlen h]
  rfl

/-- Prepending a binding whose name is no recorded temporary preserves the
scratch-map invariant. -/
theorem MapInv_prepend (env : Env) (lw : String → Nat) (m : LenMap) (binds : Env)
    (i : Nat) (n : String) (v : Val)
    (hinv : MapInv env lw m binds i)
    (hne : ∀ k, k < i → n ≠ tempName k) :
    MapInv env lw m ((n, v) :: binds) i := by
  intro o t hmem
  obtain ⟨⟨k, hk, ht⟩, hlook, hbound⟩ := hinv o t hmem
  refine ⟨⟨k, hk, ht⟩, ?_, hbound⟩
  rw [envLookup_cons, if_neg]
  · exact hlook
  · subst ht
    exact hne k hk

/-- Recording a fresh temporary for a new length slot preserves the
invariant. -/
theorem MapInv_insert (env : Env) (lw : String → Nat) (m : LenMap) (binds : Env)
    (i : Nat) (o : String) (es : List (List Nat))
    (hinv : MapInv env lw m binds i)
    (hv : envLookup env o = some (.arr es))
    (hbound : es.length < 256 ^ lw o) :
    MapInv env lw (lenMapInsert m o (tempName i))
      ((tempName i, .scalar (natToBytes (lw o) es.length)) :: binds) (i + 1) := by
  have hcount : envCount env o = es.length := by simp [envCount, hv]
  intro o' t hmem
  simp only [lenMapInsert, List.mem_cons] at hmem
  rcases hmem with h1 | h1
  · obtain ⟨ho, ht⟩ := Prod.mk.injEq .. ▸ h1
    subst ho ht
    refine ⟨⟨i, by omega, rfl⟩, ?_, ?_⟩
    · rw [envLookup_cons, if_pos rfl, hcount]
    · rw [hcount]; exact hbound
  · have hmem' : (o', t) ∈ m := (List.mem_filter.mp h1).1
    have hne : o' ≠ o := by
      have := (List.mem_filter.mp h1).2
      simpa using this
    obtain ⟨⟨k, hk, ht⟩, hlook, hb⟩ := hinv o' t hmem'
    refine ⟨⟨k, by omega, ht⟩, ?_, hb⟩
    rw [envLookup_cons, if_neg]
    · exact hlook
    · subst ht
      intro hcontra
      have := tempName_inj hcontra
      omega

/-! ## Deserializer simulation -/

theorem execFB_sim :
    ∀ (items : List StructureItem) (m : LenMap) (i : Nat)
      (body : List FBStatement) (m' : LenMap) (i' : Nat)
      (sz lw : String → Nat) (env : Env)
      (binds : Env) (done : List Nat) (lastSz : Nat)
      (tailStmts : List FBStatement),
      fbBody items m i = .ok (body, m', i') →
      (∀ it ∈ items, itemOKb sz lw env it = true) →
      (∀ n, n ∈ specBoundNames items → ∀ k, k < i' → n ≠ tempName k) →
      MapInv env lw m binds i →
      ∃ binds' lastSz',
        execFB sz (done ++ msgBytes lw env items)
            (body ++ tailStmts) ⟨done.length, binds, lastSz⟩ =
          execFB sz (done ++ msgBytes lw env items) tailStmts
            ⟨done.length + (msgBytes lw env items).length, binds', lastSz'⟩ ∧
        (∀ n, n ∈ specBoundNames items → envLookup binds' n = envLookup env n) ∧
        (∀ n, (∀ k, i ≤ k → k < i' → n ≠ tempName k) → n ∉ specBoundNames items →
          envLookup binds' n = envLookup binds n) := by
  intro items
  induction items with
  | nil =>
    intro m i body m' i' sz lw env binds done lastSz tailStmts hgen hok hfresh hinv
    simp only [fbBody, Except.ok.injEq, Prod.mk.injEq] at hgen
    obtain ⟨hb, -, -⟩ := hgen
    refine ⟨binds, lastSz, ?_, ?_, ?_⟩
    · rw [← hb]
      simp [msgBytes]
    · intro n hn
      simp [specBoundNames] at hn
    · intro n _ _
      rfl
  | cons it rest ih =>
    intro m i body m' i' sz lw env binds done lastSz tailStmts hgen hok hfresh hinv
    have hit : itemOKb sz lw env it = true := hok it (by simp)
    cases it with
    | field f =>
      obtain ⟨fname, fty⟩ := f
      simp only [fbBody] at hgen
      obtain ⟨tail, hr, hbody⟩ := fbCons_eq_ok _ _ _ _ _ hgen
      have hcnt := fbBody_counter _ _ _ _ _ _ hr
      simp only [itemOKb] at hit
      cases hv : envLookup env fname with
      | none => rw [hv] at hit; simp at hit
      | some v =>
        cases v with
        | arr es => rw [hv] at hit; simp at hit
        | scalar bs =>
          rw [hv] at hit
          simp only [beq_iff_eq] at hit
          have hlenbs : bs.length = sz fty := hit
          have hib : itemBytes lw env (.field ⟨fname, fty⟩) = bs := by
            simp [itemBytes, hv]
          have hinput : done ++ msgBytes lw env (.field ⟨fname, fty⟩ :: rest) =
              (done ++ bs) ++ msgBytes lw env rest := by
            rw [msgBytes_cons, hib, List.append_assoc]
          have hfname : ∀ k, k < i' → fname ≠ tempName k := fun k hk =>
            hfresh fname (by simp [specBoundNames]) k hk
          have hinv' : MapInv env lw m ((fname, Val.scalar bs) :: binds) i :=
            MapInv_prepend env lw m binds i fname (Val.scalar bs) hinv
              (fun k hk => hfname k (by omega))
          obtain ⟨binds', lastSz', hexec, ha, hb2⟩ :=
            ih m i tail m' i' sz lw env ((fname, Val.scalar bs) :: binds)
              (done ++ bs) (sz fty) tailStmts hr
              (fun x hx => hok x (by simp [hx]))
              (fun n hn k hk => hfresh n (by simp [specBoundNames, hn]) k hk)
              hinv'
          refine ⟨binds', lastSz', ?_, ?_, ?_⟩
          · rw [hbody, hinput]
            have hread : listSub ((done ++ bs) ++ msgBytes lw env rest)
                done.length (sz fty) = bs := by
              rw [List.append_assoc]
              exact listSub_exact done bs _ (sz fty) hlenbs
            have hbnd : done.length + sz fty ≤
                ((done ++ bs) ++ msgBytes lw env rest).length := by
              simp only [List.length_append]
              omega
            have hstep := exec_load_pair sz ((done ++ bs) ++ msgBytes lw env rest)
              fname fty true (tail ++ tailStmts) done.length binds lastSz hbnd
            have hassoc : ([FBStatement.loadStatementVariable fname (RTy.from_lvl2 fty) true,
                FBStatement.incrementIndexSz] ++ tail) ++ tailStmts =
                FBStatement.loadStatementVariable fname (RTy.basic fty) true ::
                FBStatement.incrementIndexSz :: (tail ++ tailStmts) := by
              simp [RTy.from_lvl2]
            rw [hassoc, hstep, hread]
            have hc : done.length + sz fty = (done ++ bs).length := by
              simp only [List.length_append]
              omega
            rw [hc, hexec]
            have hcur2 : (done ++ bs).length + (msgBytes lw env rest).length =
                done.length + (msgBytes lw env (.field ⟨fname, fty⟩ :: rest)).length := by
              rw [msgBytes_cons, hib]
              simp only [List.length_append]
              omega
            rw [hcur2]
          · intro n hn
            have hn' : n = fname ∨ n ∈ specBoundNames rest := by
              simpa [specBoundNames] using hn
            rcases hn' with hn1 | hn1
            · subst hn1
              by_cases hmem : n ∈ specBoundNames rest
              · exact ha n hmem
              · rw [hb2 n (fun k _ hk => hfname k hk) hmem, envLookup_cons,
                  if_pos rfl, hv]
            · exact ha n hn1
          · intro n hcond hnmem
            have hn1 : n ≠ fname := by
              intro hcontra
              subst hcontra
              exact hnmem (by simp [specBoundNames])
            have hnr : n ∉ specBoundNames rest := by
              intro hcontra
              exact hnmem (by simp [specBoundNames, hcontra])
            rw [hb2 n hcond hnr, envLookup_cons, if_neg (fun hcontra => hn1 hcontra.symm)]
    | padding b =>
      simp only [fbBody] at hgen
      obtain ⟨tail, hr, hbody⟩ := fbCons_eq_ok _ _ _ _ _ hgen
      have hib : itemBytes lw env (.padding b) = List.replicate b 0 := rfl
      have hinput : done ++ msgBytes lw env (.padding b :: rest) =
          (done ++ List.replicate b 0) ++ msgBytes lw env rest := by
        rw [msgBytes_cons, hib, List.append_assoc]
      obtain ⟨binds', lastSz', hexec, ha, hb2⟩ :=
        ih m i tail m' i' sz lw env binds (done ++ List.replicate b 0) lastSz tailStmts hr
          (fun x hx => hok x (by simp [hx]))
          (fun n hn k hk => hfresh n (by simp [specBoundNames, hn]) k hk)
          hinv
      refine ⟨binds', lastSz', ?_, ?_, ?_⟩
      · rw [hbody, hinput]
        have hassoc : ([FBStatement.incrementIndexNumber b] ++ tail) ++ tailStmts =
            FBStatement.incrementIndexNumber b :: (tail ++ tailStmts) := by simp
        rw [hassoc, exec_pad_step]
        have hc : done.length + b = (done ++ List.replicate b 0).length := by
          simp only [List.length_append, List.length_replicate]
        rw [hc, hexec]
        have hcur2 : (done ++ List.replicate b 0).length + (msgBytes lw env rest).length =
            done.length + (msgBytes lw env (.padding b :: rest)).length := by
          rw [msgBytes_cons, hib]
          simp only [List.length_append, List.length_replicate]
          omega
        rw [hcur2]
      · intro n hn
        exact ha n (by simpa [specBoundNames] using hn)
      · intro n hcond hnmem
        exact hb2 n hcond (fun hcontra => hnmem (by simpa [specBoundNames] using hcontra))
    | lenSlot ty o =>
      simp only [fbBody] at hgen
      obtain ⟨tail, hr, hbody⟩ := fbCons_eq_ok _ _ _ _ _ hgen
      have hcnt := fbBody_counter _ _ _ _ _ _ hr
      simp only [itemOKb] at hit
      cases hv : envLookup env o with
      | none => rw [hv] at hit; simp at hit
      | some v =>
        cases v with
        | scalar bs => rw [hv] at hit; simp at hit
        | arr es =>
          rw [hv] at hit
          simp only [Bool.and_eq_true, beq_iff_eq, decide_eq_true_eq] at hit
          obtain ⟨hwidth, hboundc⟩ := hit
          have hib : itemBytes lw env (.lenSlot ty o) = natToBytes (lw o) es.length := by
            simp [itemBytes, hv]
          have hlenb : (natToBytes (lw o) es.length).length = sz ty := by
            rw [length_natToBytes, hwidth]
          have hinput : done ++ msgBytes lw env (.lenSlot ty o :: rest) =
              (done ++ natToBytes (lw o) es.length) ++ msgBytes lw env rest := by
            rw [msgBytes_cons, hib, List.append_assoc]
          have hinv' : MapInv env lw (lenMapInsert m o (tempName i))
              ((tempName i, Val.scalar (natToBytes (lw o) es.length)) :: binds) (i + 1) :=
            MapInv_insert env lw m binds i o es hinv hv hboundc
          obtain ⟨binds', lastSz', hexec, ha, hb2⟩ :=
            ih (lenMapInsert m o (tempName i)) (i + 1) tail m' i' sz lw env
              ((tempName i, Val.scalar (natToBytes (lw o) es.length)) :: binds)
              (done ++ natToBytes (lw o) es.length) (sz ty) tailStmts
              (by
                have : lenMapInsert m o ("len" ++ natRepr i) =
                    lenMapInsert m o (tempName i) := rfl
                rw [← this]
                exact hr)
              (fun x hx => hok x (by simp [hx]))
              (fun n hn k hk => hfresh n (by simp [specBoundNames, hn]) k hk)
              hinv'
          refine ⟨binds', lastSz', ?_, ?_, ?_⟩
          · rw [hbody, hinput]
            have hread : listSub ((done ++ natToBytes (lw o) es.length) ++ msgBytes lw env rest)
                done.length (sz ty) = natToBytes (lw o) es.length := by
              rw [List.append_assoc]
              exact listSub_exact done _ _ (sz ty) hlenb
            have hbnd : done.length + sz ty ≤
                ((done ++ natToBytes (lw o) es.length) ++ msgBytes lw env rest).length := by
              simp only [List.length_append]
              omega
            have hstep := exec_load_pair sz
              ((done ++ natToBytes (lw o) es.length) ++ msgBytes lw env rest)
              ("len" ++ natRepr i) ty true (tail ++ tailStmts) done.length binds lastSz hbnd
            have hassoc : ([FBStatement.loadStatementVariable ("len" ++ natRepr i)
                (RTy.from_lvl2 ty) true, FBStatement.incrementIndexSz] ++ tail) ++ tailStmts =
                FBStatement.loadStatementVariable ("len" ++ natRepr i) (RTy.basic ty) true ::
                FBStatement.incrementIndexSz :: (tail ++ tailStmts) := by
              simp [RTy.from_lvl2]
            rw [hassoc, hstep, hread]
            have hc : done.length + sz ty = (done ++ natToBytes (lw o) es.length).length := by
              simp only [List.length_append]
              omega
            have htn : ("len" ++ natRepr i) = tempName i := rfl
            rw [hc, htn, hexec]
            have hcur2 : (done ++ natToBytes (lw o) es.length).length +
                (msgBytes lw env rest).length =
                done.length + (msgBytes lw env (.lenSlot ty o :: rest)).length := by
              rw [msgBytes_cons, hib]
              simp only [List.length_append]
              omega
            rw [hcur2]
          · intro n hn
            exact ha n (by simpa [specBoundNames] using hn)
          · intro n hcond hnmem
            have hi_lt : i < i' := by omega
            have hne : n ≠ tempName i := hcond i (by omega) hi_lt
            rw [hb2 n (fun k hk1 hk2 => hcond k (by omega) hk2)
                (fun hcontra => hnmem (by simpa [specBoundNames] using hcontra)),
              envLookup_cons, if_neg (fun hcontra => hne hcontra.symm)]
    | list l =>
      simp only [fbBody] at hgen
      cases hs : l.list_length.single_item with
      | some u =>
        rw [hs] at hgen
        cases hrem : lenMapRemove m l.name with
        | none => rw [hrem] at hgen; exact absurd hgen (by simp)
        | some p =>
          obtain ⟨tmp, m2⟩ := p
          rw [hrem] at hgen
          simp only [] at hgen
          obtain ⟨tail, hr, hbody⟩ := fbCons_eq_ok _ _ _ _ _ hgen
          have hcnt := fbBody_counter _ _ _ _ _ _ hr
          simp only [itemOKb] at hit
          cases hv : envLookup env l.name with
          | none => rw [hv] at hit; simp at hit
          | some v =>
            cases v with
            | scalar bs => rw [hv] at hit; simp at hit
            | arr es =>
              rw [hv] at hit
              have hit' : (es.all fun e => e.length == sz l.ty) = true := by
                have := (by simpa using hit :
                  (es.all fun e => e.length == sz l.ty) = true ∧
                  (match l.list_length with
                   | LengthSpec.singleSlot => true
                   | LengthSpec.direct n => n == es.length) = true)
                exact this.1
              have hall : ∀ e ∈ es, e.length = sz l.ty := by
                intro e he
                have := List.all_eq_true.mp hit' e he
                simpa using this
              obtain ⟨hmemM, hsubM⟩ := lenMapRemove_mem m l.name tmp m2 hrem
              obtain ⟨⟨k0, hk0, htmp⟩, hlook, hboundc⟩ := hinv l.name tmp hmemM
              have hcount : envCount env l.name = es.length := by simp [envCount, hv]
              have hdec : bytesToNat (natToBytes (lw l.name) (envCount env l.name)) =
                  envCount env l.name := bytesToNat_natToBytes _ _ hboundc
              have hdec2 : bytesToNat (natToBytes (lw l.name) es.length) = es.length := by
                rw [← hcount]
                exact hdec
              have hevalLen : evalLen binds (str_to_exprpath tmp) = some es.length := by
                simp [evalLen, str_to_exprpath, hlook, hcount, hdec2]
              have hflatlen : es.flatten.length = es.length * sz l.ty :=
                flatten_length_const es _ hall
              have hib : itemBytes lw env (.list l) =
                  es.flatten ++ List.replicate l.padding 0 := by
                simp [itemBytes, hv]
              have hinput : done ++ msgBytes lw env (.list l :: rest) =
                  (done ++ (es.flatten ++ List.replicate l.padding 0)) ++
                    msgBytes lw env rest := by
                rw [msgBytes_cons, hib]
                simp [List.append_assoc]
              have hinv' : MapInv env lw m2 ((l.name, Val.arr es) :: binds) i := by
                refine MapInv_prepend env lw m2 binds i l.name (Val.arr es) ?_ ?_
                · intro o' t hmem
                  exact hinv o' t (hsubM _ hmem)
                · intro k hk
                  exact hfresh l.name (by simp [specBoundNames]) k (by omega)
              obtain ⟨binds', lastSz', hexec, ha, hb2⟩ :=
                ih m2 i tail m' i' sz lw env ((l.name, Val.arr es) :: binds)
                  (done ++ (es.flatten ++ List.replicate l.padding 0)) lastSz tailStmts hr
                  (fun x hx => hok x (by simp [hx]))
                  (fun n hn k hk => hfresh n (by simp [specBoundNames, hn]) k hk)
                  hinv'
              refine ⟨binds', lastSz', ?_, ?_, ?_⟩
              · rw [hbody, hinput]
                have hassoc : ([FBStatement.fromBytesList l.name l.ty
                    (str_to_exprpath tmp) l.padding] ++ tail) ++ tailStmts =
                    FBStatement.fromBytesList l.name l.ty (str_to_exprpath tmp) l.padding ::
                    (tail ++ tailStmts) := by simp
                have hbnd : done.length + (es.length * sz l.ty + l.padding) ≤
                    ((done ++ (es.flatten ++ List.replicate l.padding 0)) ++
                      msgBytes lw env rest).length := by
                  simp only [List.length_append, List.length_replicate]
                  omega
                have hstep := exec_list_step sz
                  ((done ++ (es.flatten ++ List.replicate l.padding 0)) ++ msgBytes lw env rest)
                  l.name l.ty (str_to_exprpath tmp) l.padding (tail ++ tailStmts)
                  done.length binds lastSz es.length hevalLen hbnd
                have helems : (List.range es.length).map (fun k =>
                    listSub ((done ++ (es.flatten ++ List.replicate l.padding 0)) ++
                      msgBytes lw env rest)
                      (done.length + k * sz l.ty) (sz l.ty)) = es := by
                  have hform : (done ++ (es.flatten ++ List.replicate l.padding 0)) ++
                      msgBytes lw env rest =
                      done ++ (es.flatten ++
                        (List.replicate l.padding 0 ++ msgBytes lw env rest)) := by
                    simp [List.append_assoc]
                  rw [hform]
                  exact range_map_listSub es (sz l.ty) done
                    (List.replicate l.padding 0 ++ msgBytes lw env rest) hall
                rw [hassoc, hstep, helems]
                have hc : done.length + (es.length * sz l.ty + l.padding) =
                    (done ++ (es.flatten ++ List.replicate l.padding 0)).length := by
                  simp only [List.length_append, List.length_replicate]
                  omega
                rw [hc, hexec]
                have hcur2 : (done ++ (es.flatten ++ List.replicate l.padding 0)).length +
                    (msgBytes lw env rest).length =
                    done.length + (msgBytes lw env (.list l :: rest)).length := by
                  rw [msgBytes_cons, hib]
                  simp only [List.length_append, List.length_replicate]
                  omega
                rw [hcur2]
              · intro n hn
                have hn' : n = l.name ∨ n ∈ specBoundNames rest := by
                  simpa [specBoundNames] using hn
                rcases hn' with hn1 | hn1
                · rw [hn1]
                  by_cases hmem : l.name ∈ specBoundNames rest
                  · exact ha l.name hmem
                  · rw [hb2 l.name (fun k _ hk =>
                        hfresh l.name (by simp [specBoundNames]) k hk) hmem,
                      envLookup_cons, if_pos rfl, hv]
                · exact ha n hn1
              · intro n hcond hnmem
                have hn1 : n ≠ l.name := by
                  intro hcontra
                  subst hcontra
                  exact hnmem (by simp [specBoundNames])
                have hnr : n ∉ specBoundNames rest := by
                  intro hcontra
                  exact hnmem (by simp [specBoundNames, hcontra])
                rw [hb2 n hcond hnr, envLookup_cons,
                  if_neg (fun hcontra => hn1 hcontra.symm)]
      | none =>
        rw [hs] at hgen
        simp only [] at hgen
        obtain ⟨tail, hr, hbody⟩ := fbCons_eq_ok _ _ _ _ _ hgen
        have hcnt := fbBody_counter _ _ _ _ _ _ hr
        cases hl : l.list_length with
        | singleSlot => rw [hl] at hs; simp [LengthSpec.single_item] at hs
        | direct nlen =>
          simp only [itemOKb] at hit
          cases hv : envLookup env l.name with
          | none => rw [hv] at hit; simp at hit
          | some v =>
            cases v with
            | scalar bs => rw [hv] at hit; simp at hit
            | arr es =>
              rw [hv, hl] at hit
              have hit' : (es.all fun e => e.length == sz l.ty) = true ∧
                  nlen = es.length := by
                simpa using hit
              have hall : ∀ e ∈ es, e.length = sz l.ty := by
                intro e he
                have := List.all_eq_true.mp hit'.1 e he
                simpa using this
              have hnlen : nlen = es.length := hit'.2
              have hevalLen : evalLen binds l.list_length.to_length_expr =
                  some es.length := by
                rw [hl]
                simp [LengthSpec.to_length_expr, evalLen, hnlen]
              have hflatlen : es.flatten.length = es.length * sz l.ty :=
                flatten_length_const es _ hall
              have hib : itemBytes lw env (.list l) =
                  es.flatten ++ List.replicate l.padding 0 := by
                simp [itemBytes, hv]
              have hinput : done ++ msgBytes lw env (.list l :: rest) =
                  (done ++ (es.flatten ++ List.replicate l.padding 0)) ++
                    msgBytes lw env rest := by
                rw [msgBytes_cons, hib]
                simp [List.append_assoc]
              have hinv' : MapInv env lw m ((l.name, Val.arr es) :: binds) i := by
                refine MapInv_prepend env lw m binds i l.name (Val.arr es) hinv ?_
                intro k hk
                exact hfresh l.name (by simp [specBoundNames]) k (by omega)
              obtain ⟨binds', lastSz', hexec, ha, hb2⟩ :=
                ih m i tail m' i' sz lw env ((l.name, Val.arr es) :: binds)
                  (done ++ (es.flatten ++ List.replicate l.padding 0)) lastSz tailStmts hr
                  (fun x hx => hok x (by simp [hx]))
                  (fun n hn k hk => hfresh n (by simp [specBoundNames, hn]) k hk)
                  hinv'
              refine ⟨binds', lastSz', ?_, ?_, ?_⟩
              · rw [hbody, hinput]
                have hassoc : ([FBStatement.fromBytesList l.name l.ty
                    l.list_length.to_length_expr l.padding] ++ tail) ++ tailStmts =
                    FBStatement.fromBytesList l.name l.ty
                      l.list_length.to_length_expr l.padding ::
                    (tail ++ tailStmts) := by simp
                have hbnd : done.length + (es.length * sz l.ty + l.padding) ≤
                    ((done ++ (es.flatten ++ List.replicate l.padding 0)) ++
                      msgBytes lw env rest).length := by
                  simp only [List.length_append, List.length_replicate]
                  omega
                have hstep := exec_list_step sz
                  ((done ++ (es.flatten ++ List.replicate l.padding 0)) ++ msgBytes lw env rest)
                  l.name l.ty l.list_length.to_length_expr l.padding (tail ++ tailStmts)
                  done.length binds lastSz es.length hevalLen hbnd
                have helems : (List.range es.length).map (fun k =>
                    listSub ((done ++ (es.flatten ++ List.replicate l.padding 0)) ++
                      msgBytes lw env rest)
                      (done.length + k * sz l.ty) (sz l.ty)) = es := by
                  have hform : (done ++ (es.flatten ++ List.replicate l.padding 0)) ++
                      msgBytes lw env rest =
                      done ++ (es.flatten ++
                        (List.replicate l.padding 0 ++ msgBytes lw env rest)) := by
                    simp [List.append_assoc]
                  rw [hform]
                  exact range_map_listSub es (sz l.ty) done
                    (List.replicate l.padding 0 ++ msgBytes lw env rest) hall
                rw [hassoc, hstep, helems]
                have hc : done.length + (es.length * sz l.ty + l.padding) =
                    (done ++ (es.flatten ++ List.replicate l.padding 0)).length := by
                  simp only [List.length_append, List.length_replicate]
                  omega
                rw [hc, hexec]
                have hcur2 : (done ++ (es.flatten ++ List.replicate l.padding 0)).length +
                    (msgBytes lw env rest).length =
                    done.length + (msgBytes lw env (.list l :: rest)).length := by
                  rw [msgBytes_cons, hib]
                  simp only [List.length_append, List.length_replicate]
                  omega
                rw [hcur2]
              · intro n hn
                have hn' : n = l.name ∨ n ∈ specBoundNames rest := by
                  simpa [specBoundNames] using hn
                rcases hn' with hn1 | hn1
                · rw [hn1]
                  by_cases hmem : l.name ∈ specBoundNames rest
                  · exact ha l.name hmem
                  · rw [hb2 l.name (fun k _ hk =>
                        hfresh l.name (by simp [specBoundNames]) k hk) hmem,
                      envLookup_cons, if_pos rfl, hv]
                · exact ha n hn1
              · intro n hcond hnmem
                have hn1 : n ≠ l.name := by
                  intro hcontra
                  subst hcontra
                  exact hnmem (by simp [specBoundNames])
                have hnr : n ∉ specBoundNames rest := by
                  intro hcontra
                  exact hnmem (by simp [specBoundNames, hcontra])
                rw [hb2 n hcond hnr, envLookup_cons,
                  if_neg (fun hcontra => hn1 hcontra.symm)]

/-- Every bound name of a well-formed message is present in the environment. -/
theorem envBound_of_ok :
    ∀ (items : List StructureItem) (sz lw : String → Nat) (env : Env),
      (∀ it ∈ items, itemOKb sz lw env it = true) →
      ∀ n ∈ specBoundNames items, ∃ v, envLookup env n = some v := by
  intro items
  induction items with
  | nil =>
    intro sz lw env hok n hn
    simp [specBoundNames] at hn
  | cons it rest ih =>
    intro sz lw env hok n hn
    have hrest : ∀ x ∈ rest, itemOKb sz lw env x = true :=
      fun x hx => hok x (by simp [hx])
    cases it with
    | field f =>
      obtain ⟨fname, fty⟩ := f
      have hit := hok (StructureItem.field ⟨fname, fty⟩) (by simp)
      simp only [itemOKb] at hit
      rcases (by simpa [specBoundNames] using hn :
          n = fname ∨ n ∈ specBoundNames rest) with h1 | h1
      · rw [h1]
        cases hv : envLookup env fname with
        | none => rw [hv] at hit; simp at hit
        | some v => exact ⟨v, rfl⟩
      · exact ih sz lw env hrest n h1
    | padding b =>
      exact ih sz lw env hrest n (by simpa [specBoundNames] using hn)
    | lenSlot ty o =>
      exact ih sz lw env hrest n (by simpa [specBoundNames] using hn)
    | list l =>
      have hit := hok (StructureItem.list l) (by simp)
      simp only [itemOKb] at hit
      rcases (by simpa [specBoundNames] using hn :
          n = l.name ∨ n ∈ specBoundNames rest) with h1 | h1
      · rw [h1]
        cases hv : envLookup env l.name with
        | none => rw [hv] at hit; simp at hit
        | some v => exact ⟨v, rfl⟩
      · exact ih sz lw env hrest n h1

/-- C7 (round-trip): for a message whose deserialize synthesis succeeds (no
unresolved length references) and a well-formed populated instance, executing
the synthesized serialize sequence writes exactly the message's bytes and
returns the byte count; executing the synthesized deserialize sequence on
those bytes succeeds, its final cursor equals the byte count, and every
`Field` and `List` value of the reconstructed structure equals the
original's. -/
theorem spec_C7 (s s' : RStruct) (sz lw : String → Nat) (env : Env)
    (hgen : s.populate_from_bytes = .ok s')
    (hwf : msgWF sz lw env s.fields = true) :
    (runAsBytes sz lw env ((s.populate_as_bytes).asb.as_bytes_stmts) =
      some (msgBytes lw env s.fields, (msgBytes lw env s.fields).length)) ∧
    (∃ res, runFromBytes sz (msgBytes lw env s.fields) (s'.asb.from_bytes_stmts) =
        some (res, (msgBytes lw env s.fields).length) ∧
      (∀ n, n ∈ specBoundNames s.fields → envLookup res n = envLookup env n)) := by
  have hconj : (s.fields.all (itemOKb sz lw env)) = true ∧ tempFresh s.fields = true := by
    simpa [msgWF] using hwf
  have hok : ∀ it ∈ s.fields, itemOKb sz lw env it = true :=
    fun it hx => List.all_eq_true.mp hconj.1 it hx
  -- serializer
  have hstmts : (s.populate_as_bytes).asb.as_bytes_stmts =
      ABStatement.createIndexVariable ::
        (s.fields.map specABStmt ++ [ABStatement.returnIndex]) := by
    show ABStatement.createIndexVariable ::
        ((s.fields.filterMap fun f =>
          match f with
          | .field ⟨name, _⟩ => some (ABStatement.appendToIndex name)
          | .padding bytes => some (.padIndex bytes)
          | .lenSlot _ owning_list => some (.appendLengthToIndex owning_list)
          | .list l => some (.asBytesList l.name l.ty l.padding)) ++
          [ABStatement.returnIndex]) = _
    rw [filterMap_ab_eq_map]
  have hser : runAsBytes sz lw env ((s.populate_as_bytes).asb.as_bytes_stmts) =
      some (msgBytes lw env s.fields, (msgBytes lw env s.fields).length) := by
    rw [hstmts]
    show execAB sz lw env
        (ABStatement.createIndexVariable ::
          (s.fields.map specABStmt ++ [ABStatement.returnIndex])) [] = _
    rw [show execAB sz lw env
        (ABStatement.createIndexVariable ::
          (s.fields.map specABStmt ++ [ABStatement.returnIndex])) [] =
        execAB sz lw env (s.fields.map specABStmt ++ [ABStatement.returnIndex]) []
      from rfl]
    rw [execAB_sim s.fields sz lw env [] hok]
    simp
  -- deserializer
  obtain ⟨body, m', i', hb, hs'⟩ := populate_from_bytes_ok s s' hgen
  have hcnt := fbBody_counter _ _ _ _ _ _ hb
  have hfresh : ∀ n, n ∈ specBoundNames s.fields → ∀ k, k < i' → n ≠ tempName k := by
    intro n hn k hk
    have hn' : n ∈ boundFieldNames s.fields := by
      rw [boundFieldNames_eq_spec]
      exact hn
    have h1 := List.all_eq_true.mp hconj.2 n hn'
    have hkmem : tempName k ∈ (List.range (numLenSlots s.fields)).map tempName := by
      refine List.mem_map.mpr ⟨k, ?_, rfl⟩
      refine List.mem_range.mpr ?_
      omega
    have h2 := List.all_eq_true.mp h1 (tempName k) hkmem
    simpa using h2
  obtain ⟨binds', lastSz', hexec, ha, hb2⟩ :=
    execFB_sim s.fields [] 0 body m' i' sz lw env [] [] 0
      [FBStatement.returnStruct "index" s.name (boundFieldNames s.fields)]
      hb hok hfresh (by intro o t hmem; simp at hmem)
  simp only [List.nil_append, List.length_nil, Nat.zero_add] at hexec
  have hlookups : ∀ n ∈ boundFieldNames s.fields, ∃ v, envLookup binds' n = some v := by
    intro n hn
    rw [boundFieldNames_eq_spec] at hn
    obtain ⟨v, hv⟩ := envBound_of_ok s.fields sz lw env hok n hn
    exact ⟨v, by rw [ha n hn]; exact hv⟩
  obtain ⟨vals, hvals, hzip⟩ := lookupAll_zip (boundFieldNames s.fields) binds' hlookups
  refine ⟨hser, ⟨(boundFieldNames s.fields).zip vals, ?_, ?_⟩⟩
  · have hstmts' : s'.asb.from_bytes_stmts =
        FBStatement.createIndexVariable ::
          (body ++ [FBStatement.returnStruct "index" s.name (boundFieldNames s.fields)]) := by
      rw [hs']
      rfl
    have hfinal : execFB sz (msgBytes lw env s.fields)
        [FBStatement.returnStruct "index" s.name (boundFieldNames s.fields)]
        ⟨(msgBytes lw env s.fields).length, binds', lastSz'⟩ =
        some ((boundFieldNames s.fields).zip vals, (msgBytes lw env s.fields).length) := by
      show (match lookupAll binds' (boundFieldNames s.fields) with
        | none => none
        | some vals => some ((boundFieldNames s.fields).zip vals,
            (msgBytes lw env s.fields).length)) = _
      rw [hvals]
    show execFB sz (msgBytes lw env s.fields) (s'.asb.from_bytes_stmts) ⟨0, [], 0⟩ = _
    rw [hstmts']
    rw [show execFB sz (msgBytes lw env s.fields)
        (FBStatement.createIndexVariable ::
          (body ++ [FBStatement.returnStruct "index" s.name (boundFieldNames s.fields)]))
        ⟨0, [], 0⟩ =
        execFB sz (msgBytes lw env s.fields)
          (body ++ [FBStatement.returnStruct "index" s.name (boundFieldNames s.fields)])
          ⟨0, [], 0⟩ from rfl]
    rw [hexec, hfinal]
  · intro n hn
    rw [hzip n (by rw [boundFieldNames_eq_spec]; exact hn)]
    exact ha n hn

/-- The example message after `populate_from_bytes`. -/
def exStructFB : RStruct :=
  ((exStruct.populate_from_bytes).toOption).getD exStruct

theorem spec_C7_witness :
    msgWF exSz exLw exEnv exStruct.fields = true ∧
    runAsBytes exSz exLw exEnv ((exStruct.populate_as_bytes).asb.as_bytes_stmts) =
      some (msgBytes exLw exEnv exStruct.fields,
            (msgBytes exLw exEnv exStruct.fields).length) :=
  ⟨rfl, (spec_C7 exStruct exStructFB exSz exLw exEnv rfl rfl).1⟩
